import Mathlib

/-!
# Verification of the plurk-backup-viewer import/search core

Shallow embedding, translated from the repository sources:

* `tools/utils.py`      — archive fragment parsing, scan-range planning
* `tools/database.py`   — schema with FTS5 triggers, idempotent import
* `tools/links_cmd.py`  — URL extraction, image classification, link upsert
* `tools/reindex_cmd.py`— FTS rebuild
* `tools/search_api.py` — paginated search

SQLite tables are modelled as Lean lists of typed rows (in rowid order),
FTS5 virtual tables as lists of `(rowid, indexed-text)` entries, and the
`AFTER INSERT/UPDATE/DELETE` triggers as explicit fan-out in the state
transition functions.  Python `str` values are Lean `String`s, nullable
columns are `Option`s, and machine integers are unbounded `Int` (SQLite
INTEGER is a signed 64-bit value and none of the verified operations can
overflow it, since they only move values around).
-/

namespace PlurkViewer

/-! ## Dates and the incremental scan planner (`tools/utils.py`) -/

/-- A calendar date, as produced by `dateutil.parser.parse(...).date()` or
`datetime.date.today()`.  Only the year/month/day numbers matter to the
scan planner. -/
structure PDate where
  year : Int
  month : Int
  day : Int
  deriving DecidableEq, Repr

/-- Zero-padded two-digit rendering, as `strftime("%m")` produces for
month numbers `1..12`. -/
def pad2 (n : Int) : String :=
  if n < 10 then "0" ++ toString n else toString n

/-- Four-digit rendering of a year, as `strftime("%Y")` produces
(zero-padded to four digits). -/
def pad4 (n : Int) : String :=
  if n < 10 then "000" ++ toString n
  else if n < 100 then "00" ++ toString n
  else if n < 1000 then "0" ++ toString n
  else toString n

/-- `d.strftime("%Y-%m")` — the month key used for scan bounds. -/
def fmtYM (year month : Int) : String :=
  pad4 year ++ "-" ++ pad2 month

/-- The `gap_months` computation of `calculate_scan_range`:
`(current.year - latest.year) * 12 + (current.month - latest.month)`. -/
def gap_months (latest current : PDate) : Int :=
  (current.year - latest.year) * 12 + (current.month - latest.month)

/-- `current_date - relativedelta(months=6)`, projected to year/month.
`relativedelta` renormalises the month into `1..12`, borrowing from the
year; the day (clamped by `relativedelta` when needed) never reaches the
`"%Y-%m"` rendering, so it is not tracked. -/
def subSixMonths (d : PDate) : Int × Int :=
  let t : Int := d.year * 12 + (d.month - 1) - 6
  (t.ediv 12, t.emod 12 + 1)

/-- `calculate_scan_range` from `tools/utils.py`.

The SQL `SELECT MAX(posted) FROM plurks` followed by
`dateutil.parser.parse(...).date()` is modelled by the `latest` argument:
`none` when the plurks store is empty (the SQL `MAX` is `NULL`), otherwise
the parsed date of the latest stored posting timestamp. -/
def calculate_scan_range (latest : Option PDate) (current_date : PDate) :
    Option String × Option String :=
  match latest with
  | none => (none, none)
  | some latest_date =>
    let scan_start :=
      if gap_months latest_date current_date > 6 then
        fmtYM latest_date.year latest_date.month
      else
        let ym := subSixMonths current_date
        fmtYM ym.1 ym.2
    let scan_end := fmtYM current_date.year current_date.month
    (some scan_start, some scan_end)

/-! ## Rows and the import engine (`tools/database.py`) -/

variable {ρ φ : Type}

/-- One record of a plurk fragment file, as bound by `import_plurks`:
`p["id"]` is mandatory (a missing id raises `KeyError` before any insert),
the other columns come from `p.get(...)` and may be `NULL`.  The inserted
row has exactly these fields, so the same structure models a row of the
`plurks` table. -/
structure PlurkRow where
  id : Int
  base_id : Option String
  content_raw : Option String
  posted : Option String
  response_count : Option Int
  qualifier : Option String
  deriving DecidableEq, Repr

/-- The nested `user` object of a response record (`r.get("user", {})`). -/
structure ResponseUser where
  id : Option Int
  nick_name : Option String
  display_name : Option String
  deriving DecidableEq, Repr

/-- One record of a response fragment file, as read by `import_responses`:
`r["id"]` is mandatory, the rest optional. -/
structure ResponseRec where
  id : Int
  content_raw : Option String
  posted : Option String
  user : ResponseUser
  deriving DecidableEq, Repr

/-- One row of the `responses` table; `base_id` is the fragment file's key
(always a string for imported rows). -/
structure ResponseRow where
  id : Int
  base_id : String
  content_raw : Option String
  posted : Option String
  user_id : Option Int
  user_nick : Option String
  user_display : Option String
  deriving DecidableEq, Repr

/-- The row bound by `import_responses` from a record and the file key. -/
def rowOfResponseRec (base_id : String) (r : ResponseRec) : ResponseRow :=
  { id := r.id, base_id := base_id, content_raw := r.content_raw,
    posted := r.posted, user_id := r.user.id, user_nick := r.user.nick_name,
    user_display := r.user.display_name }

/-- An entity table paired with its FTS5 shadow table.  `rows` is the
table in rowid order; `fts` holds `(rowid, content_raw)` entries, kept in
sync by the `*_ai` trigger of `create_schema` which fires exactly when an
insert actually stores a row. -/
structure ContentTable (ρ : Type) where
  rows : List ρ
  fts : List (Int × Option String)
  deriving DecidableEq, Repr

/-- Whether some stored row has primary key `k`. -/
def hasKey (key : ρ → Int) (rows : List ρ) (k : Int) : Bool :=
  rows.any (fun r => key r = k)

/-- `INSERT OR IGNORE` on a table with an `AFTER INSERT` FTS trigger: a
primary-key conflict makes the statement a no-op (`cursor.rowcount = 0`,
no trigger fires); otherwise the row is stored and the trigger adds the
`(rowid, content_raw)` index entry.  Returns the new state and whether a
row was inserted. -/
def insertOrIgnoreT (key : ρ → Int) (ftsText : ρ → Option String)
    (t : ContentTable ρ) (row : ρ) : ContentTable ρ × Bool :=
  if hasKey key t.rows (key row) then (t, false)
  else ({ rows := t.rows ++ [row], fts := t.fts ++ [(key row, ftsText row)] }, true)

/-- One iteration of the import loops of `import_plurks`/`import_responses`:
insert-or-ignore, then bump `new_count` or `skipped_count`. -/
def importStep (key : ρ → Int) (ftsText : ρ → Option String)
    (acc : ContentTable ρ × Nat × Nat) (row : ρ) : ContentTable ρ × Nat × Nat :=
  let res := insertOrIgnoreT key ftsText acc.1 row
  if res.2 then (res.1, acc.2.1 + 1, acc.2.2) else (res.1, acc.2.1, acc.2.2 + 1)

/-- The inner `for p in plurks` / `for r in responses` loop. -/
def importRecs (key : ρ → Int) (ftsText : ρ → Option String)
    (acc : ContentTable ρ × Nat × Nat) (recs : List ρ) : ContentTable ρ × Nat × Nat :=
  recs.foldl (importStep key ftsText) acc

/-- The outer `for file in files` loop, generic in how a parsed file is
turned into the list of rows to insert (`g`). -/
def importFilesAux (key : ρ → Int) (ftsText : ρ → Option String) (g : φ → List ρ)
    (acc : ContentTable ρ × Nat × Nat) (files : List φ) : ContentTable ρ × Nat × Nat :=
  files.foldl (fun acc f => importRecs key ftsText acc (g f)) acc

/-- `import_plurks` from `tools/database.py`, over the parsed record lists
of the given plurk files (`parse_plurk_file` file reading is modelled by
passing the parsed lists).  Returns the updated table and
`(new_count, skipped_count)`. -/
def import_plurks (t : ContentTable PlurkRow) (plurk_files : List (List PlurkRow)) :
    ContentTable PlurkRow × Nat × Nat :=
  importFilesAux PlurkRow.id PlurkRow.content_raw id (t, 0, 0) plurk_files

/-- `import_responses` from `tools/database.py`: each parsed response file
is a `(base_id, records)` pair; rows are built from a record plus the
file's `base_id`. -/
def import_responses (t : ContentTable ResponseRow)
    (response_files : List (String × List ResponseRec)) :
    ContentTable ResponseRow × Nat × Nat :=
  importFilesAux ResponseRow.id ResponseRow.content_raw
    (fun f => f.2.map (rowOfResponseRec f.1)) (t, 0, 0) response_files

/-- Total number of records processed across the files. -/
def totalRecs (g : φ → List ρ) (files : List φ) : Nat :=
  (files.map fun f => (g f).length).sum

/-- Run `import_plurks` `n` times in sequence over the same files,
keeping the table state. -/
def importPlurksN (t : ContentTable PlurkRow) (files : List (List PlurkRow)) :
    Nat → ContentTable PlurkRow
  | 0 => t
  | n + 1 => (import_plurks (importPlurksN t files n) files).1

/-- Run `import_responses` `n` times in sequence over the same files. -/
def importResponsesN (t : ContentTable ResponseRow)
    (files : List (String × List ResponseRec)) : Nat → ContentTable ResponseRow
  | 0 => t
  | n + 1 => (import_responses (importResponsesN t files n) files).1

/-! ## FTS trigger synchronisation (`create_schema` in `tools/database.py`,
`create_link_metadata_table` in `tools/links_cmd.py`)

Each entity table is paired with an external-content FTS5 table and three
triggers: `*_ai` (AFTER INSERT: add the new row's indexed text under its
rowid), `*_ad` (AFTER DELETE: issue the FTS `'delete'` command for the old
row's rowid and text) and `*_au` (AFTER UPDATE: `'delete'` the old entry,
then insert the new one).  A mutation statement that stores no row — an
`INSERT` hitting a primary-key conflict, or an `UPDATE`/`DELETE` whose
`WHERE` matches nothing — fires no trigger.  The state machine below
captures exactly that fan-out, generically in the row payload `α` and the
tuple of indexed columns `β` (for `plurks`/`responses` the single
`content_raw` column, for `link_metadata` the three `og_*` columns). -/

/-- An entity table (rows keyed by rowid) with its FTS5 shadow table. -/
structure SyncedTable (α β : Type) where
  rows : List (Int × α)
  fts : List (Int × β)
  deriving DecidableEq, Repr

/-- A mutation applied to an entity table through the SQL layer. -/
inductive Mutation (α : Type) where
  | insert (id : Int) (a : α)
  | update (id : Int) (a : α)
  | delete (id : Int)
  deriving DecidableEq, Repr

/-- The row stored under rowid `id`, if any (`SELECT ... WHERE id = ?`). -/
def lookupRow (rows : List (Int × α)) (id : Int) : Option α :=
  (rows.find? (fun r => r.1 == id)).map Prod.snd

/-- The FTS5 `'delete'` command: remove the index entry for the given
rowid and indexed text (one occurrence). -/
def eraseEntry [DecidableEq β] : List (Int × β) → Int → β → List (Int × β)
  | [], _, _ => []
  | e :: rest, id, b => if e = (id, b) then rest else e :: eraseEntry rest id b

/-- Number of index entries for rowid `id` carrying indexed text `b`. -/
def ftsCount [DecidableEq β] : List (Int × β) → Int → β → Nat
  | [], _, _ => 0
  | e :: rest, id, b => (if e = (id, b) then 1 else 0) + ftsCount rest id b

/-- One mutation, with the trigger fan-out of the created schema. -/
def applyMutation [DecidableEq β] (proj : α → β) (s : SyncedTable α β) :
    Mutation α → SyncedTable α β
  | .insert id a =>
    match lookupRow s.rows id with
    | some _ => s      -- primary-key conflict: the statement fails, no trigger
    | none =>
      { rows := s.rows ++ [(id, a)],
        fts := s.fts ++ [(id, proj a)] }                     -- `*_ai` trigger
  | .update id a =>
    match lookupRow s.rows id with
    | none => s        -- WHERE matches no row: no trigger
    | some old =>
      { rows := s.rows.map fun r => if r.1 = id then (id, a) else r,
        fts := eraseEntry s.fts id (proj old) ++ [(id, proj a)] }  -- `*_au`
  | .delete id =>
    match lookupRow s.rows id with
    | none => s
    | some old =>
      { rows := s.rows.filter fun r => r.1 != id,
        fts := eraseEntry s.fts id (proj old) }              -- `*_ad` trigger
/-- A whole sequence of mutations. -/
def applyMutations [DecidableEq β] (proj : α → β) (s : SyncedTable α β)
    (ms : List (Mutation α)) : SyncedTable α β :=
  ms.foldl (applyMutation proj) s

/-- The freshly created schema: empty entity table, empty index, triggers
installed (`CREATE TABLE IF NOT EXISTS` + `CREATE VIRTUAL TABLE` +
`CREATE TRIGGER`). -/
def createdTable {α β : Type} : SyncedTable α β := ⟨[], []⟩

/-- Index-synchronisation invariant: rowids are unique, and the index
holds exactly one entry per stored row, carrying that row's current
indexed text. -/
def SyncOK [DecidableEq β] (proj : α → β) (s : SyncedTable α β) : Prop :=
  (s.rows.map Prod.fst).Nodup ∧
  ∀ id b, ftsCount s.fts id b =
    (match lookupRow s.rows id with
     | some a => if proj a = b then 1 else 0
     | none => 0)

/-! ## URL extraction (`URL_PATTERN` / `extract_urls` in `tools/links_cmd.py`)

The pattern is
`https?://[^\s一-鿿　-〿<>"'\]\)）」』】]*`
`[^\s一-鿿　-〿<>"'\]\)）」』】\.,;:!?]`
and `extract_urls` is `URL_PATTERN.findall(content)`.  `re.findall` scans
left to right; at each position it tries the literal scheme, then the
greedy body class with one mandatory final-class character.  Greedy
matching with backtracking of `body* final` equals: take the maximal run
of body-class characters after the scheme, then drop the trailing run of
characters that are body-class but not final-class (exactly the sentence
punctuation `. , ; : ! ?`); the match fails if nothing remains.  On
failure the scan advances one character; on success it resumes after the
match (matches do not overlap). -/

/-- Python `re` `\s` on `str` patterns: the Unicode whitespace set used
by CPython's `sre` (`[ \t\n\r\f\v]`, the C1 separators 28–31, NEL, NBSP,
and the Unicode space separators). -/
def isPySpace (c : Char) : Bool :=
  [0x9, 0xA, 0xB, 0xC, 0xD, 0x1C, 0x1D, 0x1E, 0x1F, 0x20, 0x85, 0xA0,
    0x1680, 0x2028, 0x2029, 0x202F, 0x205F, 0x3000].contains c.toNat ||
  (0x2000 ≤ c.toNat && c.toNat ≤ 0x200A)

/-- The explicit delimiter characters of both character classes:
`<`, `>`, `"`, `'`, `]`, `)`, `）` (U+FF09), `」` (U+300D),
`』` (U+300F), `】` (U+3011), listed by code point. -/
def urlDelimCodes : List Nat :=
  [60, 62, 34, 39, 93, 41, 0xFF09, 0x300D, 0x300F, 0x3011]

/-- Membership in the first (body) character class of `URL_PATTERN`:
everything except whitespace, CJK ideographs U+4E00–U+9FFF, CJK symbols
and punctuation U+3000–U+303F, and the explicit delimiters. -/
def isUrlBodyChar (c : Char) : Bool :=
  !(isPySpace c ||
    (0x4E00 ≤ c.toNat && c.toNat ≤ 0x9FFF) ||
    (0x3000 ≤ c.toNat && c.toNat ≤ 0x303F) ||
    urlDelimCodes.contains c.toNat)

/-- The sentence punctuation additionally excluded from the final
character class: `. , ; : ! ?`. -/
def trailingPunctCodes : List Nat := [46, 44, 59, 58, 33, 63]

/-- Membership in the second (final) character class of `URL_PATTERN`:
body class minus the sentence punctuation. -/
def isUrlFinalChar (c : Char) : Bool :=
  isUrlBodyChar c && !(trailingPunctCodes.contains c.toNat)

/-- Match the literal `https?://` at the head of `l` (the greedy `s?`
tries `https://` first), returning the consumed scheme and the rest. -/
def matchUrlScheme (l : List Char) : Option (List Char × List Char) :=
  if l.take 8 = "https://".toList then some ("https://".toList, l.drop 8)
  else if l.take 7 = "http://".toList then some ("http://".toList, l.drop 7)
  else none

/-- Remove the maximal trailing run of sentence-punctuation characters —
the backtracking of `body* final` past trailing `. , ; : ! ?`. -/
def stripTrailingPunct : List Char → List Char
  | [] => []
  | c :: rest =>
    let r := stripTrailingPunct rest
    if r.isEmpty && trailingPunctCodes.contains c.toNat then [] else c :: r

/-- The `findall` scan.  `fuel` only bounds the recursion depth: every
step consumes at least one character, so `fuel = l.length` never runs
out (when the list is exhausted the scan stops regardless of fuel). -/
def extractUrlsAux : Nat → List Char → List (List Char)
  | 0, _ => []
  | _ + 1, [] => []
  | fuel + 1, c :: rest =>
    match matchUrlScheme (c :: rest) with
    | none => extractUrlsAux fuel rest
    | some (pre, after) =>
      let kept := stripTrailingPunct (after.takeWhile isUrlBodyChar)
      if kept.isEmpty then extractUrlsAux fuel rest
      else (pre ++ kept) :: extractUrlsAux fuel (after.drop kept.length)

/-- `extract_urls` from `tools/links_cmd.py`:
`URL_PATTERN.findall(content)` (the `if not content` guard returns `[]`,
which the scan also does on an empty string). -/
def extract_urls (content : String) : List String :=
  (extractUrlsAux content.toList.length content.toList).map List.asString

/-- A failed `findall` match attempt at a position: whenever the scheme
matches there, the body run left after backtracking over the trailing
punctuation is empty (no final-class character, so the regex cannot
match); in particular a position where the scheme does not match. -/
def scanStepFails (s : List Char) : Prop :=
  ∀ pre after, matchUrlScheme s = some (pre, after) →
    stripTrailingPunct (after.takeWhile isUrlBodyChar) = []

/-- The complete, order-preserving characterisation of a `findall`
result `us` on input `l`: the input splits, left to right, into
alternating gap and match segments `g₀ ++ u₁ ++ g₁ ++ … ++ uₙ ++ gₙ`.
Each match `uᵢ` sits at a position where the scheme matches and is the
scheme plus the maximal body-class run with its trailing punctuation
stripped (non-empty), and the scan resumes immediately after the
stripped text; no position inside any gap (including the final gap)
admits a match.  So `us` lists every match of the input, in order of
occurrence, with none skipped. -/
def ScanDecomp : List Char → List (List Char) → Prop
  | l, [] => ∀ y, (∃ x, l = x ++ y) → scanStepFails y
  | l, u :: us =>
    ∃ g after rest,
      l = g ++ u ++ rest ∧
      (∀ y, (∃ x, g = x ++ y) → y ≠ [] → scanStepFails (y ++ u ++ rest)) ∧
      (∃ pre, matchUrlScheme (u ++ rest) = some (pre, after) ∧
        u = pre ++ stripTrailingPunct (after.takeWhile isUrlBodyChar) ∧
        stripTrailingPunct (after.takeWhile isUrlBodyChar) ≠ [] ∧
        rest = after.drop
          (stripTrailingPunct (after.takeWhile isUrlBodyChar)).length) ∧
      ScanDecomp rest us

/-- The exact-synchronisation property claimed for the index: every
stored row has exactly one index entry, carrying its current indexed
text, and rowids without a stored row have no entry at all. -/
def syncExact [DecidableEq β] (proj : α → β) (s : SyncedTable α β) : Prop :=
  (∀ id a, lookupRow s.rows id = some a →
    ftsCount s.fts id (proj a) = 1 ∧
    ∀ b, b ≠ proj a → ftsCount s.fts id b = 0) ∧
  (∀ id, lookupRow s.rows id = none → ∀ b, ftsCount s.fts id b = 0)

/-- The `sources` JSON object of a `link_metadata` row. -/
structure LinkSources where
  plurk_ids : List Int
  response_ids : List Int
  deriving DecidableEq, Repr

/-- One row of the `link_metadata` table. -/
structure LinkRow where
  url : String
  og_title : Option String
  og_description : Option String
  og_site_name : Option String
  sources : LinkSources
  status : String
  fetched_at : Option String
  deriving DecidableEq, Repr

/-- Columns indexed by `plurks_fts` (`content_raw`). -/
def plurkFtsProj (r : PlurkRow) : Option String := r.content_raw

/-- Columns indexed by `responses_fts` (`content_raw`). -/
def responseFtsProj (r : ResponseRow) : Option String := r.content_raw

/-- Columns indexed by `link_metadata_fts`
(`og_title, og_description, og_site_name`). -/
def linkFtsProj (r : LinkRow) : Option String × Option String × Option String :=
  (r.og_title, r.og_description, r.og_site_name)

/-! ## Image classification and the link store (`tools/links_cmd.py`) -/

/-- `IMAGE_EXTENSIONS` — the fixed image-extension set (a Python set;
iteration order is irrelevant to `any`). -/
def IMAGE_EXTENSIONS : List String :=
  [".jpg", ".jpeg", ".png", ".gif", ".webp", ".bmp", ".svg"]

/-- A valid URL scheme for `urllib.parse.urlsplit`: a leading ASCII
letter followed by letters, digits, `+`, `-` or `.`. -/
def validScheme (before : List Char) : Bool :=
  match before with
  | [] => false
  | c :: rest =>
    c.isAlpha && (c :: rest).all fun x => x.isAlpha || x.isDigit ||
      [43, 45, 46].contains x.toNat

/-- Strip a `scheme:` prefix as `urlsplit` does: if the text before the
first `:` is a valid scheme, drop it and the colon. -/
def splitScheme (l : List Char) : List Char :=
  let before := l.takeWhile fun c => c != ':'
  if before.length < l.length && validScheme before then
    l.drop (before.length + 1)
  else l

/-- Strip a `//netloc` as `urlsplit` does: when the text starts with
`//`, the netloc extends to the first `/`, `?` or `#` (which is kept). -/
def splitNetloc (l : List Char) : List Char :=
  match l with
  | '/' :: '/' :: rest => rest.dropWhile fun c => !([47, 63, 35].contains c.toNat)
  | _ => l

/-- `urllib.parse.uses_params`: the schemes for which `urlparse` splits
`;params` off the path (the empty scheme included). -/
def usesParams : List String :=
  ["", "ftp", "hdl", "prospero", "http", "imap", "https", "shttp",
   "rtsp", "rtsps", "rtspu", "sip", "sips", "mms", "sftp", "tel"]

/-- The scheme `urlsplit` extracts, lowercased: the text before the
first `:` when it is a valid scheme, else the empty string. -/
def urlScheme (l : List Char) : String :=
  let before := l.takeWhile fun c => c != ':'
  if before.length < l.length && validScheme before then
    (before.map Char.toLower).asString
  else ""

/-- `urlparse`'s `_splitparams` on the path: the params start at the
first `;` of the last `/`-segment (at the first `;` of the whole path
when it has no `/`); everything from the `;` on is dropped. -/
def splitParams (p : List Char) : List Char :=
  if p.contains '/' then
    let lastSeg := (p.reverse.takeWhile fun c => c != '/').reverse
    if lastSeg.contains ';' then
      p.take (p.length - lastSeg.length) ++ lastSeg.takeWhile fun c => c != ';'
    else p
  else p.takeWhile fun c => c != ';'

/-- The `path` component of `urllib.parse.urlparse(url)`: strip the
scheme and netloc, cut at the fragment (`#`) and the query (`?`), and
for a scheme that uses parameters split the `;params` off. -/
def urlPath (url : String) : List Char :=
  let p := ((splitNetloc (splitScheme url.data)).takeWhile fun c => c != '#').takeWhile
    fun c => c != '?'
  if usesParams.contains (urlScheme url.data) then splitParams p else p

/-- Python `str.endswith`: the suffix matches the end of the string
(false when the suffix is longer). -/
def endsWithChars (l p : List Char) : Bool :=
  l.drop (l.length - p.length) == p

/-- `is_image_url` from `tools/links_cmd.py`: the lowercased `urlparse`
path ends with one of the image extensions.  (`str.lower` is modelled on
ASCII letters, which covers every extension comparison made here.) -/
def is_image_url (url : String) : Bool :=
  let path := (urlPath url).map Char.toLower
  IMAGE_EXTENSIONS.any fun ext => endsWithChars path ext.data

/-- `sorted(list(set(old + new)))` on integer id lists: duplicates
removed, ascending order.  (`insertionSort` is extensionally `sorted`
here: both produce the unique sorted duplicate-free enumeration.) -/
def sortedMergedIds (old new : List Int) : List Int :=
  ((old ++ new).dedup).insertionSort (· ≤ ·)

/-- `SELECT sources FROM link_metadata WHERE url = ?` — the stored row
for a URL (the primary key admits at most one). -/
def linkFind (tbl : List LinkRow) (url : String) : Option LinkRow :=
  tbl.find? fun r => r.url == url

/-- `upsert_link` from `tools/links_cmd.py`.  The `sources` JSON
round-trip (`json.dumps`/`json.loads`) is the identity on the id-list
object and is modelled away.  Returns the new table and True iff a new
URL was inserted. -/
def upsert_link (tbl : List LinkRow) (url : String) (new_sources : LinkSources) :
    List LinkRow × Bool :=
  match linkFind tbl url with
  | none =>
    (tbl ++ [{ url := url, og_title := none, og_description := none,
               og_site_name := none, sources := new_sources,
               status := if is_image_url url then "image" else "pending",
               fetched_at := none }], true)
  | some row =>
    let merged : LinkSources :=
      { plurk_ids := sortedMergedIds row.sources.plurk_ids new_sources.plurk_ids,
        response_ids := sortedMergedIds row.sources.response_ids new_sources.response_ids }
    (tbl.map fun r => if r.url == url then { r with sources := merged } else r,
     false)

/-- The inner loops of `merge_url_sources`: append each id not already
present, preserving first-seen order. -/
def mergeIds (base new : List Int) : List Int :=
  new.foldl (fun acc pid => if pid ∈ acc then acc else acc ++ [pid]) base

/-- `merge_url_sources` from `tools/links_cmd.py`, over insertion-ordered
dictionaries (Python dicts) represented as association lists. -/
def merge_url_sources (base new : List (String × LinkSources)) :
    List (String × LinkSources) :=
  new.foldl
    (fun b entry =>
      let b' := if b.any fun e => e.1 == entry.1 then b
                else b ++ [(entry.1, ⟨[], []⟩)]
      b'.map fun e =>
        if e.1 == entry.1 then
          (e.1, ⟨mergeIds e.2.plurk_ids entry.2.plurk_ids,
                 mergeIds e.2.response_ids entry.2.response_ids⟩)
        else e)
    base

/-- The fields of a `link_metadata` row other than `sources` (with the
row's identity), used to state that a merge touches nothing else. -/
def linkNonSources (r : LinkRow) :
    String × Option String × Option String × Option String × String × Option String :=
  (r.url, r.og_title, r.og_description, r.og_site_name, r.status, r.fetched_at)

/-! ## Paginated search (`tools/search_api.py`)

`_search_content` and `_search_links` issue a data query
(`... ORDER BY ... DESC LIMIT ? OFFSET ?`) and a count query with the
same `WHERE` clause.  The model takes, for each table, the list of rows
matching the query (the query string and the fts/like mode determine
that list; the claims quantify over it), in the SQL result order; the
`COUNT(*)` of the same predicate is then the list's length, and
`LIMIT/OFFSET` is drop-then-take. -/

def RESULTS_PER_PAGE : Nat := 50

/-- The result page returned by the search endpoints. -/
structure SearchPage (ρ : Type) where
  results : List ρ
  total : Nat
  page : Nat
  pages : Nat
  error : Option String
  deriving Repr

/-- `max(1, math.ceil(total / RESULTS_PER_PAGE))`. -/
def totalPages (total : Nat) : Nat :=
  max 1 ((total + (RESULTS_PER_PAGE - 1)) / RESULTS_PER_PAGE)

/-- The sort key of the final `results.sort`: `r.get("posted") or ""`. -/
def searchKey (posted : Option String) : String := posted.getD ""

/-- `SearchDB._search_content`: up to one page from the plurks query and
up to one page from the responses query (each with the same offset), the
two totals added, and the combined slice re-sorted by `posted`
descending (`list.sort` is stable; so is `insertionSort`). -/
def searchContent (postedOf : ρ → Option String)
    (plurkMatches responseMatches : List ρ) (search_type : String) (page : Nat) :
    SearchPage ρ :=
  let offset := page * RESULTS_PER_PAGE
  let inP := search_type = "all" ∨ search_type = "plurks"
  let inR := search_type = "all" ∨ search_type = "responses"
  let results₁ := if inP then (plurkMatches.drop offset).take RESULTS_PER_PAGE else []
  let count₁ := if inP then plurkMatches.length else 0
  let results₂ := if inR then (responseMatches.drop offset).take RESULTS_PER_PAGE else []
  let count₂ := if inR then responseMatches.length else 0
  { results := (results₁ ++ results₂).insertionSort
      fun a b => searchKey (postedOf b) ≤ searchKey (postedOf a),
    total := count₁ + count₂,
    page := page,
    pages := totalPages (count₁ + count₂),
    error := none }

/-- `SearchDB._search_links`: guarded by the existence of the
`link_metadata` table and (in fts mode) of its FTS table; otherwise one
page of the matching links (already in the SQL `ORDER BY rowid DESC`
order). -/
def searchLinks (linkMatches : List ρ)
    (tableExists ftsExists useFts : Bool) (page : Nat) : SearchPage ρ :=
  if !tableExists then
    { results := [], total := 0, page := page, pages := 1,
      error := some "Link search not available. Run plurk-tools links extract first." }
  else if useFts && !ftsExists then
    { results := [], total := 0, page := page, pages := 1,
      error := some "FTS index not available for links." }
  else
    { results := (linkMatches.drop (page * RESULTS_PER_PAGE)).take RESULTS_PER_PAGE,
      total := linkMatches.length,
      page := page,
      pages := totalPages linkMatches.length,
      error := none }

/-- `SearchDB.search`: dispatch on the requested scope. -/
def search (postedOf : ρ → Option String)
    (plurkMatches responseMatches linkMatches : List ρ)
    (tableExists ftsExists useFts : Bool) (search_type : String) (page : Nat) :
    SearchPage ρ :=
  if search_type = "links" then
    searchLinks linkMatches tableExists ftsExists useFts page
  else
    searchContent postedOf plurkMatches responseMatches search_type page

/-- The number of rows matching a search, per scope (zero when the link
store or its index is missing and the query cannot run). -/
def matchTotal (plurkMatches responseMatches linkMatches : List ρ)
    (tableExists ftsExists useFts : Bool) (search_type : String) : Nat :=
  if search_type = "links" then
    if !tableExists then 0
    else if useFts && !ftsExists then 0
    else linkMatches.length
  else
    (if search_type = "all" ∨ search_type = "plurks" then plurkMatches.length else 0) +
    (if search_type = "all" ∨ search_type = "responses" then responseMatches.length else 0)

/-! ## Archive fragment parsing (`parse_plurk_file` / `parse_response_file`
in `tools/utils.py`)

A fragment file is `BackupData.plurks["KEY"]=[...];` (or
`BackupData.responses[...]`).  The code anchors the regex
`BackupData\.plurks\["([^"]+)"\]` at the start (`re.match`), takes the
first index of `"]="` (`str.index`, `ValueError` when absent), the last
index of `"]"` (`str.rindex` — it exists whenever `"]="` does), slices
between them and feeds the slice to `json.loads`
(`json.JSONDecodeError`, a `ValueError`, when unparseable).  `json.loads`
is modelled below: strict JSON with the CPython extras (`NaN`,
`Infinity`, `-Infinity`), JSON whitespace only, `\uXXXX` escapes with
surrogate pairs combined (a lone surrogate, which CPython would turn
into an unrepresentable lone-surrogate `str`, is rejected), and object
members kept in order as an association list. -/

/-- JSON whitespace as the decoder skips it: space, tab, LF, CR. -/
def isJsonWs (c : Char) : Bool := [32, 9, 10, 13].contains c.toNat

/-- Skip leading JSON whitespace. -/
def skipWs (l : List Char) : List Char := l.dropWhile isJsonWs

/-- A JSON value as `json.loads` produces it.  A number keeps whether it
was written as a float, with value `m * 10 ^ e`. -/
inductive Json where
  | null
  | bool (b : Bool)
  | num (isFloat : Bool) (m : Int) (e : Int)
  | str (s : String)
  | arr (elems : List Json)
  | obj (members : List (String × Json))
  | nan
  | inf (pos : Bool)
  deriving Repr

/-- Consume an exact literal prefix, returning the rest. -/
def dropPrefixChars : List Char → List Char → Option (List Char)
  | [], l => some l
  | _, [] => none
  | p :: ps, c :: cs => if p = c then dropPrefixChars ps cs else none

/-- The value of one hexadecimal digit. -/
def hexDigitVal (c : Char) : Option Nat :=
  if 48 ≤ c.toNat ∧ c.toNat ≤ 57 then some (c.toNat - 48)
  else if 97 ≤ c.toNat ∧ c.toNat ≤ 102 then some (c.toNat - 87)
  else if 65 ≤ c.toNat ∧ c.toNat ≤ 70 then some (c.toNat - 55)
  else none

/-- Four hexadecimal digits (the `XXXX` of a `\uXXXX` escape). -/
def hex4 : List Char → Option (Nat × List Char)
  | a :: b :: c :: d :: rest =>
    match hexDigitVal a, hexDigitVal b, hexDigitVal c, hexDigitVal d with
    | some x, some y, some z, some w =>
      some (((x * 16 + y) * 16 + z) * 16 + w, rest)
    | _, _, _, _ => none
  | _ => none

/-- One escape sequence after a backslash: the decoded characters and
how many input characters the escape consumed (1 for a single-letter
escape, 5 for `uXXXX`, 11 for a surrogate pair).  Surrogate pairs are
combined; a lone surrogate is rejected (see the section comment). -/
def parseEscape (l : List Char) : Option (List Char × Nat) :=
  match l with
  | [] => none
  | c :: rest =>
    if c = '"' then some (['"'], 1)
    else if c = '\\' then some (['\\'], 1)
    else if c = '/' then some (['/'], 1)
    else if c = 'b' then some ([Char.ofNat 8], 1)
    else if c = 'f' then some ([Char.ofNat 12], 1)
    else if c = 'n' then some ([Char.ofNat 10], 1)
    else if c = 'r' then some ([Char.ofNat 13], 1)
    else if c = 't' then some ([Char.ofNat 9], 1)
    else if c = 'u' then
      match hex4 rest with
      | none => none
      | some (v, rest₂) =>
        if 0xD800 ≤ v ∧ v ≤ 0xDBFF then
          match rest₂ with
          | '\\' :: 'u' :: rest₃ =>
            match hex4 rest₃ with
            | none => none
            | some (w, _) =>
              if 0xDC00 ≤ w ∧ w ≤ 0xDFFF then
                some ([Char.ofNat (0x10000 + (v - 0xD800) * 0x400 + (w - 0xDC00))],
                  11)
              else none
          | _ => none
        else if 0xDC00 ≤ v ∧ v ≤ 0xDFFF then none
        else some ([Char.ofNat v], 5)
    else none

/-- The body of a string literal, after the opening quote.  `strict`
mode: an unescaped control character below U+0020 is an error. -/
def parseStrAux : Nat → List Char → List Char → Option (String × List Char)
  | 0, _, _ => none
  | fuel + 1, acc, l =>
    match l with
    | [] => none
    | '"' :: rest => some (⟨acc.reverse⟩, rest)
    | '\\' :: rest =>
      match parseEscape rest with
      | none => none
      | some (cs, k) => parseStrAux fuel (cs.reverse ++ acc) (rest.drop k)
    | c :: rest =>
      if c.toNat < 32 then none else parseStrAux fuel (c :: acc) rest

/-- Split a maximal run of decimal digits. -/
def takeDigits (l : List Char) : List Char × List Char :=
  (l.takeWhile Char.isDigit, l.dropWhile Char.isDigit)

/-- Decimal value of a digit run. -/
def digitsVal (ds : List Char) : Nat :=
  ds.foldl (fun acc c => acc * 10 + (c.toNat - 48)) 0

/-- The unsigned integer part of `NUMBER_RE`: `0|[1-9][0-9]*` (after a
leading `0` the regex stops — no leading-zero runs). -/
def parseUIntPart (l : List Char) : Option (List Char × List Char) :=
  match l with
  | '0' :: r => some (['0'], r)
  | c :: _ => if c.isDigit then some (takeDigits l) else none
  | [] => none

/-- The integer part of `NUMBER_RE`: `-?(0|[1-9][0-9]*)`; returns the
sign, the digits and the rest. -/
def parseIntPart (l : List Char) : Option (Bool × List Char × List Char) :=
  match l with
  | '-' :: r => (parseUIntPart r).map fun p => (true, p)
  | _ => (parseUIntPart l).map fun p => (false, p)

/-- The optional fraction `(\.[0-9]+)?`: digits and rest, or nothing
consumed when there is no digit after the dot. -/
def parseFracPart (l : List Char) : List Char × List Char :=
  match l with
  | '.' :: r =>
    if (takeDigits r).1.isEmpty then ([], l) else takeDigits r
  | _ => ([], l)

/-- The optional sign of the exponent. -/
def parseExpSign (l : List Char) : Int × List Char :=
  match l with
  | '+' :: rr => (1, rr)
  | '-' :: rr => (-1, rr)
  | _ => (1, l)

/-- The optional exponent `([eE][-+]?[0-9]+)?`: its signed value and the
rest, or nothing consumed when no digit follows. -/
def parseExpPart (l : List Char) : Option Int × List Char :=
  match l with
  | c :: r =>
    if c = 'e' ∨ c = 'E' then
      if (takeDigits (parseExpSign r).2).1.isEmpty then (none, c :: r)
      else (some ((parseExpSign r).1 * (digitsVal (takeDigits (parseExpSign r).2).1 : Int)),
        (takeDigits (parseExpSign r).2).2)
    else (none, c :: r)
  | [] => (none, [])

/-- A JSON number at the head of the input (`NUMBER_RE.match`). -/
def parseNumber (l : List Char) : Option (Json × List Char) :=
  match parseIntPart l with
  | none => none
  | some (neg, ids, l₂) =>
    let frac := parseFracPart l₂
    let ex := parseExpPart frac.2
    let mNat := digitsVal (ids ++ frac.1)
    let m : Int := if neg then -(mNat : Int) else (mNat : Int)
    some (Json.num (ex.1.isSome || !frac.1.isEmpty) m
      (ex.1.getD 0 - frac.1.length), ex.2)

mutual
/-- `json.loads`'s `scan_once` (leading whitespace skipped, as every
call site of the decoder does before scanning).  `fuel` only bounds the
recursion depth; every recursive call first consumes at least one
character, so `input length + 1` never runs out. -/
def parseValue : Nat → List Char → Option (Json × List Char)
  | 0, _ => none
  | fuel + 1, l =>
    match skipWs l with
    | [] => none
    | c :: rest =>
      if c = '"' then
        match parseStrAux (rest.length + 1) [] rest with
        | none => none
        | some (s, rest') => some (Json.str s, rest')
      else if c = '[' then
        match skipWs rest with
        | ']' :: rest₂ => some (Json.arr [], rest₂)
        | l₂ =>
          match parseValue fuel l₂ with
          | none => none
          | some (j, rest₂) =>
            match parseElemsRest fuel rest₂ [j] with
            | none => none
            | some (es, rest₃) => some (Json.arr es, rest₃)
      else if c = '{' then
        match skipWs rest with
        | '}' :: rest₂ => some (Json.obj [], rest₂)
        | '"' :: rest₂ =>
          match parseStrAux (rest₂.length + 1) [] rest₂ with
          | none => none
          | some (key, rest₃) =>
            match skipWs rest₃ with
            | ':' :: rest₄ =>
              match parseValue fuel rest₄ with
              | none => none
              | some (v, rest₅) =>
                match parseMembersRest fuel rest₅ [(key, v)] with
                | none => none
                | some (ms, rest₆) => some (Json.obj ms, rest₆)
            | _ => none
        | _ => none
      else if c = 'n' then
        match dropPrefixChars "ull".data rest with
        | some rest' => some (Json.null, rest')
        | none => none
      else if c = 't' then
        match dropPrefixChars "rue".data rest with
        | some rest' => some (Json.bool true, rest')
        | none => none
      else if c = 'f' then
        match dropPrefixChars "alse".data rest with
        | some rest' => some (Json.bool false, rest')
        | none => none
      else if c = 'N' then
        match dropPrefixChars "aN".data rest with
        | some rest' => some (Json.nan, rest')
        | none => none
      else if c = 'I' then
        match dropPrefixChars "nfinity".data rest with
        | some rest' => some (Json.inf true, rest')
        | none => none
      else if c = '-' then
        match dropPrefixChars "Infinity".data rest with
        | some rest' => some (Json.inf false, rest')
        | none => parseNumber (c :: rest)
      else if c.isDigit then
        parseNumber (c :: rest)
      else none

/-- The array loop after the first element: `,` then a value, until the
closing `]`. -/
def parseElemsRest : Nat → List Char → List Json →
    Option (List Json × List Char)
  | 0, _, _ => none
  | fuel + 1, l, acc =>
    match skipWs l with
    | ']' :: rest => some (acc.reverse, rest)
    | ',' :: rest =>
      match parseValue fuel rest with
      | none => none
      | some (j, rest₂) => parseElemsRest fuel rest₂ (j :: acc)
    | _ => none

/-- The object loop after the first member: `,` then a string key, `:`
and a value, until the closing `}`. -/
def parseMembersRest : Nat → List Char → List (String × Json) →
    Option (List (String × Json) × List Char)
  | 0, _, _ => none
  | fuel + 1, l, acc =>
    match skipWs l with
    | '}' :: rest => some (acc.reverse, rest)
    | ',' :: rest =>
      match skipWs rest with
      | '"' :: rest₂ =>
        match parseStrAux (rest₂.length + 1) [] rest₂ with
        | none => none
        | some (key, rest₃) =>
          match skipWs rest₃ with
          | ':' :: rest₄ =>
            match parseValue fuel rest₄ with
            | none => none
            | some (v, rest₅) => parseMembersRest fuel rest₅ ((key, v) :: acc)
          | _ => none
      | _ => none
    | _ => none
end

/-- The textual form of every JSON value determines its last character:
`null` ends in `l`, `true`/`false` in `e`, a number in a digit, a string
in `"`, an array in `]`, an object in `}`, `NaN` in `N`,
`Infinity`/`-Infinity` in `y`.  This is what forces a successfully
parsed payload that ends in `]` to be an array. -/
def lastCharOk : Json → Char → Prop
  | .null, c => c = 'l'
  | .bool _, c => c = 'e'
  | .num _ _ _, c => c.isDigit = true
  | .str _, c => c = '"'
  | .arr _, c => c = ']'
  | .obj _, c => c = '}'
  | .nan, c => c = 'N'
  | .inf _, c => c = 'y'

/-- `json.loads` on a character list: one value, then only whitespace
may remain (else `Extra data`). -/
def jsonParseChars (l : List Char) : Option Json :=
  match parseValue (l.length + 1) l with
  | some (j, rest) => if (skipWs rest).isEmpty then some j else none
  | none => none

/-- `re.match(r'BackupData\.<kind>\["([^"]+)"\]', content)`: anchored at
the start; the capture is a non-empty run of non-quote characters, and
`"]` must follow it. -/
def matchBackupLabel (kind : String) (content : String) : Option String :=
  match dropPrefixChars ("BackupData." ++ kind ++ "[\"").data content.data with
  | none => none
  | some rest =>
    let key := rest.takeWhile fun c => c != '"'
    if key.isEmpty then none
    else
      match rest.dropWhile fun c => c != '"' with
      | '"' :: ']' :: _ => some ⟨key⟩
      | _ => none

/-- `content.index("]=")`: the first index of the two-character
substring, `None` (a `ValueError` in Python) when absent. -/
def findEqIdx : List Char → Option Nat
  | ']' :: '=' :: _ => some 0
  | _ :: rest => (findEqIdx rest).map (· + 1)
  | [] => none

/-- `content.rindex("]")`: the last index of `]`. -/
def rfindRBracket : List Char → Option Nat
  | [] => none
  | c :: rest =>
    match rfindRBracket rest with
    | some i => some (i + 1)
    | none => if c = ']' then some 0 else none

/-- The slice `content[eq_pos + 2 : rindex + 1]` fed to `json.loads`
(empty when the bounds are absent or cross). -/
def payloadSlice (content : String) : List Char :=
  match findEqIdx content.data, rfindRBracket content.data with
  | some i, some r => (content.data.take (r + 1)).drop (i + 2)
  | _, _ => []

/-- `parse_plurk_file` from `tools/utils.py`, over the file's text
(`path.read_text` is modelled by passing the content).  Python raises
`ValueError`/`json.JSONDecodeError` (the spec's `MalformedArchiveError`)
on the error paths; the model returns them as `Except.error`. -/
def parse_plurk_file (content : String) : Except String (String × Json) :=
  match matchBackupLabel "plurks" content with
  | none => .error "Invalid plurk file format"
  | some month_key =>
    match findEqIdx content.data with
    | none => .error "substring not found"
    | some _ =>
      match jsonParseChars (payloadSlice content) with
      | some plurks => .ok (month_key, plurks)
      | none => .error "Expecting value"

/-- `parse_response_file` from `tools/utils.py`: identical shape with
the `responses` label; the key is the thread `base_id`. -/
def parse_response_file (content : String) : Except String (String × Json) :=
  match matchBackupLabel "responses" content with
  | none => .error "Invalid response file format"
  | some base_id =>
    match findEqIdx content.data with
    | none => .error "substring not found"
    | some _ =>
      match jsonParseChars (payloadSlice content) with
      | some responses => .ok (base_id, responses)
      | none => .error "Expecting value"

/-! ## FTS rebuild (`tools/reindex_cmd.py`) -/

/-- An FTS5 virtual table: its tokenizer configuration and its entries
(rowid paired with the indexed columns). -/
structure FtsTable (ε : Type) where
  tokenizer : String
  entries : List ε
  deriving DecidableEq, Repr

/-- The database state `rebuild_fts` operates on: the three entity
tables (`link_metadata` is `none` when the table was never created) and
their FTS tables (`none` when dropped or never created). -/
structure DBState where
  plurks : List PlurkRow
  responses : List ResponseRow
  link_metadata : Option (List LinkRow)
  plurks_fts : Option (FtsTable (Int × Option String))
  responses_fts : Option (FtsTable (Int × Option String))
  link_metadata_fts :
    Option (FtsTable (Int × (Option String × Option String × Option String)))
  deriving DecidableEq, Repr

/-- Modelled from the spec: `rebuild_fts` calls
`create_schema(conn, tokenizer)`, but the `create_schema` in
`src/tools/database.py` takes no tokenizer (it pins
`tokenize='unicode61'`); the tests (`test_reindex.py`) call the
two-argument form, so the tokenizer-parametrised variant is code of this
repository missing from `src/`.  Per §4.4 of the spec it recreates the
same `plurks_fts`/`responses_fts` tables and triggers under the given
tokenizer; its `CREATE TABLE IF NOT EXISTS` leaves the existing entity
tables untouched. -/
def create_schema_fts (db : DBState) (tokenizer : String) : DBState :=
  { db with plurks_fts := some ⟨tokenizer, []⟩,
            responses_fts := some ⟨tokenizer, []⟩ }

/-- `rebuild_fts` from `tools/reindex_cmd.py`: drop the triggers and the
three FTS tables, recreate the plurks/responses FTS via `create_schema`
and (when the `link_metadata` table exists) the links FTS, then
repopulate each FTS table by bulk-copying the entity rows
(`rowid` = `id` for plurks/responses, the implicit rowid — position,
1-based — for links).  Returns the new state and the per-table
repopulated row counts. -/
def rebuild_fts (db : DBState) (tokenizer : String) :
    DBState × (Nat × Nat × Nat) :=
  let db₁ : DBState := { db with plurks_fts := none, responses_fts := none,
                                 link_metadata_fts := none }
  let db₂ := create_schema_fts db₁ tokenizer
  let db₃ : DBState :=
    match db₂.link_metadata with
    | some _ => { db₂ with link_metadata_fts := some ⟨tokenizer, []⟩ }
    | none => db₂
  let pEntries := db₃.plurks.map fun r => (r.id, r.content_raw)
  let rEntries := db₃.responses.map fun r => (r.id, r.content_raw)
  let lEntries :=
    match db₃.link_metadata with
    | some rows => rows.enum.map fun p => ((p.1 : Int) + 1, linkFtsProj p.2)
    | none => []
  let db₄ : DBState :=
    { db₃ with
      plurks_fts := some ⟨tokenizer, pEntries⟩,
      responses_fts := some ⟨tokenizer, rEntries⟩,
      link_metadata_fts :=
        match db₃.link_metadata with
        | some _ => some ⟨tokenizer, lEntries⟩
        | none => db₃.link_metadata_fts }
  (db₄, (pEntries.length, rEntries.length, lEntries.length))

/-! ### Import engine lemmas -/

theorem importStep_eq (key : ρ → Int) (ft : ρ → Option String)
    (acc : ContentTable ρ × Nat × Nat) (row : ρ) :
    importStep key ft acc row =
      if hasKey key acc.1.rows (key row) then (acc.1, acc.2.1, acc.2.2 + 1)
      else ({ rows := acc.1.rows ++ [row],
              fts := acc.1.fts ++ [(key row, ft row)] }, acc.2.1 + 1, acc.2.2) := by
  unfold importStep insertOrIgnoreT
  by_cases h : hasKey key acc.1.rows (key row) <;> simp [h]

theorem hasKey_importStep_mono (key : ρ → Int) (ft : ρ → Option String)
    (acc : ContentTable ρ × Nat × Nat) (row : ρ) (k : Int)
    (h : hasKey key acc.1.rows k = true) :
    hasKey key (importStep key ft acc row).1.rows k = true := by
  rw [importStep_eq]
  by_cases hk : hasKey key acc.1.rows (key row) = true
  · rw [if_pos hk]; exact h
  · rw [if_neg hk]
    show hasKey key (acc.1.rows ++ [row]) k = true
    simp only [hasKey, List.any_append, Bool.or_eq_true]
    exact Or.inl h

theorem hasKey_importStep_self (key : ρ → Int) (ft : ρ → Option String)
    (acc : ContentTable ρ × Nat × Nat) (row : ρ) :
    hasKey key (importStep key ft acc row).1.rows (key row) = true := by
  rw [importStep_eq]
  by_cases hk : hasKey key acc.1.rows (key row) = true
  · rw [if_pos hk]; exact hk
  · rw [if_neg hk]
    show hasKey key (acc.1.rows ++ [row]) (key row) = true
    simp [hasKey, List.any_append]

theorem importStep_counts (key : ρ → Int) (ft : ρ → Option String)
    (acc : ContentTable ρ × Nat × Nat) (row : ρ) :
    (importStep key ft acc row).2.1 + (importStep key ft acc row).2.2 =
      acc.2.1 + acc.2.2 + 1 := by
  rw [importStep_eq]
  by_cases hk : hasKey key acc.1.rows (key row) <;> simp [hk] <;> omega

theorem importStep_skip (key : ρ → Int) (ft : ρ → Option String)
    (t : ContentTable ρ) (n s : Nat) (row : ρ)
    (h : hasKey key t.rows (key row) = true) :
    importStep key ft (t, n, s) row = (t, n, s + 1) := by
  rw [importStep_eq]; simp [h]

theorem hasKey_importRecs_mono (key : ρ → Int) (ft : ρ → Option String)
    (recs : List ρ) (acc : ContentTable ρ × Nat × Nat) (k : Int)
    (h : hasKey key acc.1.rows k = true) :
    hasKey key (importRecs key ft acc recs).1.rows k = true := by
  induction recs generalizing acc with
  | nil => exact h
  | cons r rs ih =>
    exact ih (importStep key ft acc r) (hasKey_importStep_mono key ft acc r k h)

theorem hasKey_importRecs_self (key : ρ → Int) (ft : ρ → Option String)
    (recs : List ρ) (acc : ContentTable ρ × Nat × Nat) (r : ρ) (hr : r ∈ recs) :
    hasKey key (importRecs key ft acc recs).1.rows (key r) = true := by
  induction recs generalizing acc with
  | nil => cases hr
  | cons x xs ih =>
    rcases List.mem_cons.mp hr with h | h
    · subst h
      exact hasKey_importRecs_mono key ft xs (importStep key ft acc r) (key r)
        (hasKey_importStep_self key ft acc r)
    · exact ih (importStep key ft acc x) h

theorem importRecs_counts (key : ρ → Int) (ft : ρ → Option String)
    (recs : List ρ) (acc : ContentTable ρ × Nat × Nat) :
    (importRecs key ft acc recs).2.1 + (importRecs key ft acc recs).2.2 =
      acc.2.1 + acc.2.2 + recs.length := by
  induction recs generalizing acc with
  | nil => simp [importRecs]
  | cons r rs ih =>
    have h := ih (importStep key ft acc r)
    have hstep := importStep_counts key ft acc r
    simp only [importRecs, List.foldl_cons, List.length_cons] at h ⊢
    omega

theorem importRecs_skip (key : ρ → Int) (ft : ρ → Option String)
    (recs : List ρ) (t : ContentTable ρ) (n s : Nat)
    (h : ∀ r ∈ recs, hasKey key t.rows (key r) = true) :
    importRecs key ft (t, n, s) recs = (t, n, s + recs.length) := by
  induction recs generalizing s with
  | nil => simp [importRecs]
  | cons r rs ih =>
    simp only [importRecs, List.foldl_cons]
    rw [importStep_skip key ft t n s r (h r (List.mem_cons_self r rs))]
    have := ih (s + 1) (fun x hx => h x (List.mem_cons_of_mem r hx))
    simpa [importRecs, List.length_cons, Nat.add_assoc, Nat.add_comm 1 rs.length] using this

theorem hasKey_importFilesAux_mono (key : ρ → Int) (ft : ρ → Option String)
    (g : φ → List ρ) (files : List φ) (acc : ContentTable ρ × Nat × Nat) (k : Int)
    (h : hasKey key acc.1.rows k = true) :
    hasKey key (importFilesAux key ft g acc files).1.rows k = true := by
  induction files generalizing acc with
  | nil => exact h
  | cons f fs ih =>
    exact ih (importRecs key ft acc (g f)) (hasKey_importRecs_mono key ft (g f) acc k h)

theorem hasKey_importFilesAux_self (key : ρ → Int) (ft : ρ → Option String)
    (g : φ → List ρ) (files : List φ) (acc : ContentTable ρ × Nat × Nat)
    (f : φ) (hf : f ∈ files) (r : ρ) (hr : r ∈ g f) :
    hasKey key (importFilesAux key ft g acc files).1.rows (key r) = true := by
  induction files generalizing acc with
  | nil => cases hf
  | cons x xs ih =>
    rcases List.mem_cons.mp hf with h | h
    · subst h
      exact hasKey_importFilesAux_mono key ft g xs (importRecs key ft acc (g f)) (key r)
        (hasKey_importRecs_self key ft (g f) acc r hr)
    · exact ih (importRecs key ft acc (g x)) h

theorem importFilesAux_counts (key : ρ → Int) (ft : ρ → Option String)
    (g : φ → List ρ) (files : List φ) (acc : ContentTable ρ × Nat × Nat) :
    (importFilesAux key ft g acc files).2.1 + (importFilesAux key ft g acc files).2.2 =
      acc.2.1 + acc.2.2 + totalRecs g files := by
  induction files generalizing acc with
  | nil => simp [importFilesAux, totalRecs]
  | cons f fs ih =>
    have h := ih (importRecs key ft acc (g f))
    have hrecs := importRecs_counts key ft (g f) acc
    simp only [importFilesAux, List.foldl_cons] at h ⊢
    simp only [totalRecs, List.map_cons, List.sum_cons] at h ⊢
    omega

theorem importFilesAux_skip (key : ρ → Int) (ft : ρ → Option String)
    (g : φ → List ρ) (files : List φ) (t : ContentTable ρ) (n s : Nat)
    (h : ∀ f ∈ files, ∀ r ∈ g f, hasKey key t.rows (key r) = true) :
    importFilesAux key ft g (t, n, s) files = (t, n, s + totalRecs g files) := by
  induction files generalizing s with
  | nil => simp [importFilesAux, totalRecs]
  | cons f fs ih =>
    simp only [importFilesAux, List.foldl_cons]
    rw [importRecs_skip key ft (g f) t n s (h f (List.mem_cons_self f fs))]
    have := ih (s + (g f).length) (fun x hx => h x (List.mem_cons_of_mem f hx))
    simp only [importFilesAux] at this
    rw [this]
    simp [totalRecs, Nat.add_assoc]

theorem import_plurks_again (t : ContentTable PlurkRow) (files : List (List PlurkRow)) :
    import_plurks (import_plurks t files).1 files =
      ((import_plurks t files).1, 0, totalRecs id files) := by
  have := importFilesAux_skip PlurkRow.id PlurkRow.content_raw id files
    (import_plurks t files).1 0 0
    (fun f hf r hr =>
      hasKey_importFilesAux_self PlurkRow.id PlurkRow.content_raw id files (t, 0, 0) f hf r hr)
  simpa [import_plurks] using this

theorem import_responses_again (t : ContentTable ResponseRow)
    (files : List (String × List ResponseRec)) :
    import_responses (import_responses t files).1 files =
      ((import_responses t files).1, 0,
        totalRecs (fun f => f.2.map (rowOfResponseRec f.1)) files) := by
  have := importFilesAux_skip ResponseRow.id ResponseRow.content_raw
    (fun f : String × List ResponseRec => f.2.map (rowOfResponseRec f.1)) files
    (import_responses t files).1 0 0
    (fun f hf r hr =>
      hasKey_importFilesAux_self ResponseRow.id ResponseRow.content_raw
        (fun f : String × List ResponseRec => f.2.map (rowOfResponseRec f.1))
        files (t, 0, 0) f hf r hr)
  simpa [import_responses] using this

theorem importPlurksN_eq_once (t : ContentTable PlurkRow)
    (files : List (List PlurkRow)) (n : Nat) :
    importPlurksN t files (n + 1) = (import_plurks t files).1 := by
  induction n with
  | zero => rfl
  | succ n ih =>
    show (import_plurks (importPlurksN t files (n + 1)) files).1 = _
    rw [ih, import_plurks_again]

theorem importResponsesN_eq_once (t : ContentTable ResponseRow)
    (files : List (String × List ResponseRec)) (n : Nat) :
    importResponsesN t files (n + 1) = (import_responses t files).1 := by
  induction n with
  | zero => rfl
  | succ n ih =>
    show (import_responses (importResponsesN t files (n + 1)) files).1 = _
    rw [ih, import_responses_again]

/-- C1: Import is idempotent and never overwrites: over any fragment
files, re-running `import_plurks`/`import_responses` an Nth time (N ≥ 1)
inserts no row and changes no stored content — every record whose id is
already stored is a no-op counted as skipped — so repeated imports yield
a database (rows and FTS entries) identical to a single import, and for
each run `new_count + skipped_count` equals the number of records
processed. -/
theorem c1_import_idempotent_insert_if_absent :
    ∀ (tp : ContentTable PlurkRow) (pfiles : List (List PlurkRow))
      (tr : ContentTable ResponseRow) (rfiles : List (String × List ResponseRec)),
      -- every run's counts sum to the number of records processed
      ((import_plurks tp pfiles).2.1 + (import_plurks tp pfiles).2.2 =
        (pfiles.map List.length).sum) ∧
      ((import_responses tr rfiles).2.1 + (import_responses tr rfiles).2.2 =
        (rfiles.map fun f => f.2.length).sum) ∧
      -- a repeated run inserts nothing, changes nothing, and skips all records
      (import_plurks (import_plurks tp pfiles).1 pfiles =
        ((import_plurks tp pfiles).1, 0, (pfiles.map List.length).sum)) ∧
      (import_responses (import_responses tr rfiles).1 rfiles =
        ((import_responses tr rfiles).1, 0, (rfiles.map fun f => f.2.length).sum)) ∧
      -- N successive runs (N ≥ 1) leave the database of a single run
      (∀ n, importPlurksN tp pfiles (n + 1) = (import_plurks tp pfiles).1) ∧
      (∀ n, importResponsesN tr rfiles (n + 1) = (import_responses tr rfiles).1) := by
  intro tp pfiles tr rfiles
  have hp : totalRecs (id (α := List PlurkRow)) pfiles = (pfiles.map List.length).sum := by
    simp [totalRecs]
  have hr : totalRecs (fun f : String × List ResponseRec =>
      f.2.map (rowOfResponseRec f.1)) rfiles = (rfiles.map fun f => f.2.length).sum := by
    simp [totalRecs]
  refine ⟨?_, ?_, ?_, ?_, importPlurksN_eq_once tp pfiles, importResponsesN_eq_once tr rfiles⟩
  · rw [← hp]
    simpa [import_plurks] using
      importFilesAux_counts PlurkRow.id PlurkRow.content_raw id pfiles (tp, 0, 0)
  · rw [← hr]
    simpa [import_responses] using
      importFilesAux_counts ResponseRow.id ResponseRow.content_raw
        (fun f : String × List ResponseRec => f.2.map (rowOfResponseRec f.1)) rfiles (tr, 0, 0)
  · rw [← hp]; exact import_plurks_again tp pfiles
  · rw [← hr]; exact import_responses_again tr rfiles

end PlurkViewer

namespace PlurkViewer

/-! ### FTS synchronisation lemmas -/

theorem ftsCount_append [DecidableEq β] (l₁ l₂ : List (Int × β)) (id : Int) (b : β) :
    ftsCount (l₁ ++ l₂) id b = ftsCount l₁ id b + ftsCount l₂ id b := by
  induction l₁ with
  | nil => simp [ftsCount]
  | cons e rest ih => simp [ftsCount, ih, Nat.add_assoc]

theorem ftsCount_eraseEntry_self [DecidableEq β] (l : List (Int × β)) (id : Int) (b : β) :
    ftsCount (eraseEntry l id b) id b = ftsCount l id b - 1 := by
  induction l with
  | nil => simp [eraseEntry, ftsCount]
  | cons e rest ih =>
    by_cases h : e = (id, b)
    · simp [eraseEntry, ftsCount, h]
    · simp only [eraseEntry, if_neg h, ftsCount, ih]
      omega

theorem ftsCount_eraseEntry_of_ne [DecidableEq β] (l : List (Int × β))
    (id : Int) (b : β) (id' : Int) (b' : β) (h : (id', b') ≠ (id, b)) :
    ftsCount (eraseEntry l id b) id' b' = ftsCount l id' b' := by
  induction l with
  | nil => rfl
  | cons e rest ih =>
    by_cases he : e = (id, b)
    · subst he
      simp only [eraseEntry]
      rw [if_pos trivial]
      simp only [ftsCount]
      rw [if_neg (Ne.symm h)]
      omega
    · simp [eraseEntry, if_neg he, ftsCount, ih]

theorem lookupRow_cons (r : Int × α) (rows : List (Int × α)) (id : Int) :
    lookupRow (r :: rows) id = if r.1 = id then some r.2 else lookupRow rows id := by
  by_cases h : r.1 = id
  · simp [lookupRow, List.find?, h]
  · have hb : (r.1 == id) = false := by simp [h]
    simp [lookupRow, List.find?, h, hb]

theorem lookupRow_eq_none_iff (rows : List (Int × α)) (id : Int) :
    lookupRow rows id = none ↔ id ∉ rows.map Prod.fst := by
  induction rows with
  | nil => simp [lookupRow]
  | cons r rest ih =>
    by_cases h : r.1 = id
    · simp [lookupRow_cons, h]
    · simp [lookupRow_cons, h, ih, Ne.symm h]

theorem lookupRow_append_single (rows : List (Int × α)) (id : Int) (a : α) (id' : Int) :
    lookupRow (rows ++ [(id, a)]) id' =
      match lookupRow rows id' with
      | some x => some x
      | none => if id = id' then some a else none := by
  induction rows with
  | nil => by_cases h : id = id' <;> simp [lookupRow_cons, lookupRow, h]
  | cons r rest ih =>
    by_cases h : r.1 = id' <;> simp [lookupRow_cons, h, ih]

theorem lookupRow_map_update (rows : List (Int × α)) (id : Int) (a : α) (id' : Int) :
    lookupRow (rows.map fun r => if r.1 = id then (id, a) else r) id' =
      if id' = id then (lookupRow rows id).map (fun _ => a)
      else lookupRow rows id' := by
  induction rows with
  | nil => simp [lookupRow]
  | cons r rest ih =>
    by_cases h : r.1 = id
    · by_cases h' : id' = id
      · subst h'
        simp [List.map_cons, lookupRow_cons, h, ih]
      · have h2 : ¬ id = id' := fun hh => h' hh.symm
        have h3 : ¬ r.1 = id' := by rw [h]; exact h2
        simp [List.map_cons, lookupRow_cons, h, ih, h', h2, h3]
    · by_cases h'' : r.1 = id'
      · have hne : ¬ id' = id := fun hh => h (by rw [h'', hh])
        simp [List.map_cons, lookupRow_cons, h, h'', hne]
      · simp [List.map_cons, lookupRow_cons, h, h'', ih]

theorem lookupRow_filter_ne (rows : List (Int × α)) (id id' : Int) :
    lookupRow (rows.filter fun r => r.1 != id) id' =
      if id' = id then none else lookupRow rows id' := by
  induction rows with
  | nil => simp [lookupRow]
  | cons r rest ih =>
    by_cases h : r.1 = id
    · have hb : (r.1 != id) = false := by simp [h]
      rw [List.filter_cons, hb]
      by_cases h' : id' = id
      · subst h'
        simpa using ih
      · have h3 : ¬ r.1 = id' := by rw [h]; exact fun hh => h' hh.symm
        simp [ih, h', lookupRow_cons, h3]
    · have hb : (r.1 != id) = true := by simp [h]
      rw [List.filter_cons, hb]
      by_cases h'' : r.1 = id'
      · have hne : ¬ id' = id := fun hh => h (by rw [h'', hh])
        simp [lookupRow_cons, h'', hne]
      · simp [lookupRow_cons, h'', ih]

theorem keys_map_update (rows : List (Int × α)) (id : Int) (a : α) :
    (rows.map fun r => if r.1 = id then (id, a) else r).map Prod.fst =
      rows.map Prod.fst := by
  induction rows with
  | nil => rfl
  | cons r rest ih => by_cases h : r.1 = id <;> simp [h, ih]

theorem syncOK_applyMutation [DecidableEq β] (proj : α → β) (s : SyncedTable α β)
    (m : Mutation α) (h : SyncOK proj s) : SyncOK proj (applyMutation proj s m) := by
  obtain ⟨hnd, hcount⟩ := h
  cases m with
  | insert id a =>
    cases hl : lookupRow s.rows id with
    | some x => simpa [applyMutation, hl] using ⟨hnd, hcount⟩
    | none =>
      have hstate : applyMutation proj s (.insert id a) =
          { rows := s.rows ++ [(id, a)], fts := s.fts ++ [(id, proj a)] } := by
        simp [applyMutation, hl]
      rw [hstate]
      constructor
      · have hid : id ∉ s.rows.map Prod.fst := (lookupRow_eq_none_iff _ _).mp hl
        simp only [List.map_append, List.map_cons, List.map_nil]
        exact hnd.append (List.nodup_singleton id)
          (by simpa [List.disjoint_singleton] using hid)
      · intro id' b
        rw [ftsCount_append, lookupRow_append_single]
        have hsingle : ftsCount [(id, proj a)] id' b =
            if (id, proj a) = (id', b) then 1 else 0 := by simp [ftsCount]
        rw [hsingle, hcount id' b]
        cases hl' : lookupRow s.rows id' with
        | some x =>
          have hne : ¬ (id, proj a) = (id', b) := by
            intro hh
            rw [Prod.mk.injEq] at hh
            rw [hh.1, hl'] at hl
            cases hl
          simp [hl', hne]
        | none =>
          by_cases hid : id = id'
          · subst hid
            simp [hl', Prod.mk.injEq]
          · simp [hl', hid, Prod.mk.injEq]
  | update id a =>
    cases hl : lookupRow s.rows id with
    | none => simpa [applyMutation, hl] using ⟨hnd, hcount⟩
    | some old =>
      have hstate : applyMutation proj s (.update id a) =
          { rows := s.rows.map fun r => if r.1 = id then (id, a) else r,
            fts := eraseEntry s.fts id (proj old) ++ [(id, proj a)] } := by
        simp [applyMutation, hl]
      rw [hstate]
      constructor
      · show ((s.rows.map fun r => if r.1 = id then (id, a) else r).map Prod.fst).Nodup
        rw [keys_map_update]
        exact hnd
      · intro id' b
        rw [ftsCount_append, lookupRow_map_update]
        have hsingle : ftsCount [(id, proj a)] id' b =
            if (id, proj a) = (id', b) then 1 else 0 := by simp [ftsCount]
        rw [hsingle]
        by_cases hid : id' = id
        · subst hid
          rw [hl]
          by_cases hb : proj old = b
          · subst hb
            rw [ftsCount_eraseEntry_self, hcount id' (proj old), hl]
            simp [Prod.mk.injEq]
          · rw [ftsCount_eraseEntry_of_ne _ _ _ _ _ (by simp [Prod.mk.injEq, Ne.symm hb]),
              hcount id' b, hl]
            simp [Prod.mk.injEq, hb]
        · have h2 : ¬ id = id' := fun hh => hid hh.symm
          rw [ftsCount_eraseEntry_of_ne _ _ _ _ _ (by simp [Prod.mk.injEq, hid]),
            hcount id' b]
          simp [Prod.mk.injEq, hid, h2]
  | delete id =>
    cases hl : lookupRow s.rows id with
    | none => simpa [applyMutation, hl] using ⟨hnd, hcount⟩
    | some old =>
      have hstate : applyMutation proj s (.delete id) =
          { rows := s.rows.filter fun r => r.1 != id,
            fts := eraseEntry s.fts id (proj old) } := by
        simp [applyMutation, hl]
      rw [hstate]
      constructor
      · exact ((List.filter_sublist s.rows).map Prod.fst).nodup hnd
      · intro id' b
        rw [lookupRow_filter_ne]
        by_cases hid : id' = id
        · subst hid
          by_cases hb : proj old = b
          · subst hb
            rw [ftsCount_eraseEntry_self, hcount id' (proj old), hl]
            simp
          · rw [ftsCount_eraseEntry_of_ne _ _ _ _ _ (by simp [Prod.mk.injEq, Ne.symm hb]),
              hcount id' b, hl]
            simp [hb]
        · rw [ftsCount_eraseEntry_of_ne _ _ _ _ _ (by simp [Prod.mk.injEq, hid]),
            hcount id' b]
          simp [hid]

theorem syncOK_createdTable [DecidableEq β] (proj : α → β) :
    SyncOK proj (createdTable (α := α) (β := β)) :=
  ⟨List.nodup_nil, fun _ _ => rfl⟩

theorem syncOK_applyMutations [DecidableEq β] (proj : α → β)
    (ms : List (Mutation α)) (s : SyncedTable α β) (h : SyncOK proj s) :
    SyncOK proj (applyMutations proj s ms) := by
  induction ms generalizing s with
  | nil => exact h
  | cons m rest ih =>
    exact ih (applyMutation proj s m) (syncOK_applyMutation proj s m h)

theorem syncOK_syncExact [DecidableEq β] (proj : α → β) (s : SyncedTable α β)
    (h : SyncOK proj s) : syncExact proj s := by
  obtain ⟨-, hcount⟩ := h
  constructor
  · intro id a ha
    constructor
    · rw [hcount id (proj a), ha]; simp
    · intro b hb
      rw [hcount id b, ha]
      simp [Ne.symm hb]
  · intro id ha b
    rw [hcount id b, ha]

/-- C3: Index-synchronisation invariant: after any sequence of inserts,
updates and deletes applied to the `plurks`, `responses` and
`link_metadata` tables through the created schema (whose triggers fan
each mutation out to the paired FTS table), every existing row has
exactly one full-text-index entry whose indexed text equals the row's
current content fields, and the index has no entry for deleted or
superseded content. -/
theorem c3_fts_index_synchronisation :
    (∀ ms : List (Mutation PlurkRow),
      syncExact plurkFtsProj (applyMutations plurkFtsProj createdTable ms)) ∧
    (∀ ms : List (Mutation ResponseRow),
      syncExact responseFtsProj (applyMutations responseFtsProj createdTable ms)) ∧
    (∀ ms : List (Mutation LinkRow),
      syncExact linkFtsProj (applyMutations linkFtsProj createdTable ms)) :=
  ⟨fun ms => syncOK_syncExact _ _
      (syncOK_applyMutations _ ms _ (syncOK_createdTable _)),
   fun ms => syncOK_syncExact _ _
      (syncOK_applyMutations _ ms _ (syncOK_createdTable _)),
   fun ms => syncOK_syncExact _ _
      (syncOK_applyMutations _ ms _ (syncOK_createdTable _))⟩

/-- Closed witness for `c3_fts_index_synchronisation`: after inserting
two plurks, updating one and deleting the other, the surviving row's
current text is indexed exactly once and the deleted row's text has no
entry. -/
theorem c3_fts_index_synchronisation_witness :
    ftsCount (applyMutations plurkFtsProj createdTable
        [Mutation.insert 1 ⟨1, none, some "hello", none, none, none⟩,
         Mutation.insert 2 ⟨2, none, some "gone", none, none, none⟩,
         Mutation.update 1 ⟨1, none, some "updated", none, none, none⟩,
         Mutation.delete 2]).fts 1 (some "updated") = 1 ∧
    ftsCount (applyMutations plurkFtsProj createdTable
        [Mutation.insert 1 ⟨1, none, some "hello", none, none, none⟩,
         Mutation.insert 2 ⟨2, none, some "gone", none, none, none⟩,
         Mutation.update 1 ⟨1, none, some "updated", none, none, none⟩,
         Mutation.delete 2]).fts 2 (some "gone") = 0 := by
  have h := c3_fts_index_synchronisation.1
    [Mutation.insert 1 ⟨1, none, some "hello", none, none, none⟩,
     Mutation.insert 2 ⟨2, none, some "gone", none, none, none⟩,
     Mutation.update 1 ⟨1, none, some "updated", none, none, none⟩,
     Mutation.delete 2]
  exact ⟨(h.1 1 ⟨1, none, some "updated", none, none, none⟩ (by decide)).1,
    h.2 2 (by decide) (some "gone")⟩

/-! ### URL extraction lemmas -/

theorem matchUrlScheme_eq_some (l pre after : List Char)
    (h : matchUrlScheme l = some (pre, after)) :
    (pre = "https://".toList ∨ pre = "http://".toList) ∧ l = pre ++ after := by
  unfold matchUrlScheme at h
  by_cases h8 : l.take 8 = "https://".toList
  · rw [if_pos h8] at h
    injection h with h'
    injection h' with hpre hafter
    subst hpre hafter
    exact ⟨Or.inl rfl, by rw [← h8]; exact (List.take_append_drop 8 l).symm⟩
  · rw [if_neg h8] at h
    by_cases h7 : l.take 7 = "http://".toList
    · rw [if_pos h7] at h
      injection h with h'
      injection h' with hpre hafter
      subst hpre hafter
      exact ⟨Or.inr rfl, by rw [← h7]; exact (List.take_append_drop 7 l).symm⟩
    · rw [if_neg h7] at h
      cases h

theorem stripTrailingPunct_decomp (l : List Char) :
    ∃ run, l = stripTrailingPunct l ++ run ∧
      ∀ c ∈ run, trailingPunctCodes.contains c.toNat = true := by
  induction l with
  | nil => exact ⟨[], rfl, by simp⟩
  | cons c rest ih =>
    obtain ⟨run, hrest, hrun⟩ := ih
    by_cases hcond :
        ((stripTrailingPunct rest).isEmpty && trailingPunctCodes.contains c.toNat) = true
    · refine ⟨c :: run, ?_, ?_⟩
      · have hempty : stripTrailingPunct rest = [] :=
          List.isEmpty_iff.mp (Bool.and_elim_left hcond)
        simp only [stripTrailingPunct]
        rw [if_pos hcond, List.nil_append]
        rw [hempty, List.nil_append] at hrest
        rw [← hrest]
      · intro x hx
        rcases List.mem_cons.mp hx with rfl | hx
        · exact Bool.and_elim_right hcond
        · exact hrun x hx
    · refine ⟨run, ?_, hrun⟩
      simp only [stripTrailingPunct]
      rw [if_neg hcond, List.cons_append, ← hrest]

theorem stripTrailingPunct_last (l : List Char) (h : stripTrailingPunct l ≠ []) :
    ∃ c, (stripTrailingPunct l).getLast? = some c ∧
      trailingPunctCodes.contains c.toNat = false := by
  induction l with
  | nil => simp [stripTrailingPunct] at h
  | cons c rest ih =>
    by_cases hcond :
        ((stripTrailingPunct rest).isEmpty && trailingPunctCodes.contains c.toNat) = true
    · exfalso
      apply h
      simp only [stripTrailingPunct]
      rw [if_pos hcond]
    · have hs : stripTrailingPunct (c :: rest) = c :: stripTrailingPunct rest := by
        simp only [stripTrailingPunct]
        rw [if_neg hcond]
      rw [hs]
      cases hr : stripTrailingPunct rest with
      | nil =>
        have hpunct : trailingPunctCodes.contains c.toNat = false := by
          cases hcontains : trailingPunctCodes.contains c.toNat
          · rfl
          · exact absurd (by rw [hr, hcontains]; rfl) hcond
        exact ⟨c, List.getLast?_singleton c, hpunct⟩
      | cons d ds =>
        obtain ⟨e, he, hpe⟩ := ih (by rw [hr]; exact List.cons_ne_nil d ds)
        rw [hr] at he
        exact ⟨e, by rw [List.getLast?_cons_cons]; exact he, hpe⟩

theorem mem_of_getLast?_eq {α : Type} :
    ∀ (l : List α) (c : α), l.getLast? = some c → c ∈ l := by
  intro l
  induction l with
  | nil => intro c h; cases h
  | cons a rest ih =>
    intro c h
    cases hr : rest with
    | nil =>
      subst hr
      rw [List.getLast?_singleton] at h
      injection h with h'
      exact h' ▸ List.mem_singleton_self a
    | cons b bs =>
      subst hr
      rw [List.getLast?_cons_cons] at h
      exact List.mem_cons_of_mem a (ih c h)

theorem mem_stripTrailingPunct_body (after : List Char) (x : Char)
    (hx : x ∈ stripTrailingPunct (after.takeWhile isUrlBodyChar)) :
    isUrlBodyChar x = true := by
  obtain ⟨run, hdecomp, -⟩ := stripTrailingPunct_decomp (after.takeWhile isUrlBodyChar)
  exact List.mem_takeWhile_imp (by rw [hdecomp]; exact List.mem_append_left _ hx)

theorem extractUrlsAux_mem_spec :
    ∀ (fuel : Nat) (l u : List Char), u ∈ extractUrlsAux fuel l →
    ∃ tail, (u = "https://".toList ++ tail ∨ u = "http://".toList ++ tail) ∧
      tail ≠ [] ∧ (∀ c ∈ tail, isUrlBodyChar c = true) ∧
      ∃ c, tail.getLast? = some c ∧ isUrlFinalChar c = true := by
  intro fuel
  induction fuel with
  | zero => intro l u hu; cases hu
  | succ fuel ih =>
    intro l u hu
    cases l with
    | nil => cases hu
    | cons c rest =>
      cases hm : matchUrlScheme (c :: rest) with
      | none =>
        exact ih rest u (by simpa [extractUrlsAux, hm] using hu)
      | some pa =>
        obtain ⟨pre, after⟩ := pa
        simp only [extractUrlsAux, hm] at hu
        by_cases hk : (stripTrailingPunct (after.takeWhile isUrlBodyChar)).isEmpty = true
        · rw [if_pos hk] at hu
          exact ih rest u hu
        · rw [if_neg hk] at hu
          rcases List.mem_cons.mp hu with rfl | hu
          · have hne : stripTrailingPunct (after.takeWhile isUrlBodyChar) ≠ [] :=
              fun hh => hk (List.isEmpty_iff.mpr hh)
            refine ⟨stripTrailingPunct (after.takeWhile isUrlBodyChar), ?_, hne, ?_, ?_⟩
            · rcases (matchUrlScheme_eq_some _ _ _ hm).1 with hpre | hpre
              · exact Or.inl (by rw [hpre])
              · exact Or.inr (by rw [hpre])
            · exact fun x hx => mem_stripTrailingPunct_body after x hx
            · obtain ⟨e, he, hep⟩ := stripTrailingPunct_last _ hne
              have hbody : isUrlBodyChar e = true :=
                mem_stripTrailingPunct_body after e (mem_of_getLast?_eq _ e he)
              exact ⟨e, he, by unfold isUrlFinalChar; rw [hbody, hep]; rfl⟩
          · exact ih _ u hu

theorem extractUrlsAux_decomp :
    ∀ (fuel : Nat) (l u : List Char), u ∈ extractUrlsAux fuel l →
    ∃ a run b, l = a ++ u ++ run ++ b ∧
      (∀ x ∈ run, trailingPunctCodes.contains x.toNat = true) ∧
      (b = [] ∨ ∃ d, b.head? = some d ∧ isUrlBodyChar d = false) := by
  intro fuel
  induction fuel with
  | zero => intro l u hu; cases hu
  | succ fuel ih =>
    intro l u hu
    cases l with
    | nil => cases hu
    | cons c rest =>
      cases hm : matchUrlScheme (c :: rest) with
      | none =>
        obtain ⟨a, run, b, hsplit, hrun, hb⟩ :=
          ih rest u (by simpa [extractUrlsAux, hm] using hu)
        exact ⟨c :: a, run, b, by simp [hsplit], hrun, hb⟩
      | some pa =>
        obtain ⟨pre, after⟩ := pa
        simp only [extractUrlsAux, hm] at hu
        by_cases hk : (stripTrailingPunct (after.takeWhile isUrlBodyChar)).isEmpty = true
        · rw [if_pos hk] at hu
          obtain ⟨a, run, b, hsplit, hrun, hb⟩ := ih rest u hu
          exact ⟨c :: a, run, b, by simp [hsplit], hrun, hb⟩
        · rw [if_neg hk] at hu
          have hl : (c :: rest : List Char) = pre ++ after :=
            (matchUrlScheme_eq_some _ _ _ hm).2
          set tw := after.takeWhile isUrlBodyChar with htwdef
          set dw := after.dropWhile isUrlBodyChar with hdwdef
          set kept := stripTrailingPunct tw with hkeptdef
          obtain ⟨run, htw, hrun⟩ := stripTrailingPunct_decomp tw
          have h0 : tw ++ dw = after := by
            rw [htwdef, hdwdef]
            exact List.takeWhile_append_dropWhile _ _
          have hafter : after = kept ++ (run ++ dw) := by
            rw [← h0]
            conv_lhs => rw [htw]
            rw [List.append_assoc]
          have hdrop : after.drop kept.length = run ++ dw := by
            conv_lhs => rw [hafter]
            exact List.drop_left _ _
          rcases List.mem_cons.mp hu with rfl | hu
          · refine ⟨[], run, dw, ?_, hrun, ?_⟩
            · rw [List.nil_append, hl, hafter]
              simp [List.append_assoc]
            · cases hdw2 : dw with
              | nil => exact Or.inl rfl
              | cons d ds =>
                refine Or.inr ⟨d, rfl, ?_⟩
                have hnot := List.head?_dropWhile_not isUrlBodyChar after
                rw [← hdwdef, hdw2] at hnot
                exact hnot
          · obtain ⟨a, run', b, hsplit, hrun', hb⟩ := ih _ u hu
            refine ⟨pre ++ kept ++ a, run', b, ?_, hrun', hb⟩
            rw [hl, hafter, ← hdrop, hsplit]
            simp [List.append_assoc]

theorem scanStepFails_of_none (s : List Char) (h : matchUrlScheme s = none) :
    scanStepFails s := by
  intro pre after hm
  rw [h] at hm
  cases hm

theorem scanDecomp_nil : ScanDecomp [] [] := by
  intro y hy
  obtain ⟨x, hx⟩ := hy
  have hx' := hx.symm
  rw [List.append_eq_nil] at hx'
  rw [hx'.2]
  exact scanStepFails_of_none [] rfl

theorem scanDecomp_gapExtend (c : Char) (rest : List Char)
    (us : List (List Char)) (h : ScanDecomp rest us)
    (hc : scanStepFails (c :: rest)) : ScanDecomp (c :: rest) us := by
  cases us with
  | nil =>
    intro y hy
    obtain ⟨x, hx⟩ := hy
    cases x with
    | nil =>
      rw [List.nil_append] at hx
      rw [← hx]
      exact hc
    | cons a x' =>
      injection hx with h1 h2
      exact h y ⟨x', h2⟩
  | cons u us' =>
    obtain ⟨g, after, rest', hl, hgap, hmatch, hrec⟩ := h
    refine ⟨c :: g, after, rest', by rw [hl]; rfl, ?_, hmatch, hrec⟩
    intro y hy hyne
    obtain ⟨x, hx⟩ := hy
    cases x with
    | nil =>
      rw [List.nil_append] at hx
      have hfull : y ++ u ++ rest' = c :: rest := by
        rw [← hx, hl]
        rfl
      rw [hfull]
      exact hc
    | cons a x' =>
      injection hx with h1 h2
      exact hgap y ⟨x', h2⟩ hyne

theorem scan_resume_decomp (after : List Char) :
    after = stripTrailingPunct (after.takeWhile isUrlBodyChar) ++
      after.drop (stripTrailingPunct (after.takeWhile isUrlBodyChar)).length := by
  obtain ⟨run, hdec, -⟩ := stripTrailingPunct_decomp (after.takeWhile isUrlBodyChar)
  set kept := stripTrailingPunct (after.takeWhile isUrlBodyChar) with hkept
  have h1 : after = kept ++ (run ++ after.dropWhile isUrlBodyChar) := by
    conv_lhs => rw [← List.takeWhile_append_dropWhile isUrlBodyChar after, hdec]
    exact List.append_assoc _ _ _
  have h2 : after.drop kept.length = run ++ after.dropWhile isUrlBodyChar := by
    conv_lhs => rw [h1]
    exact List.drop_left _ _
  rw [h2]
  exact h1

theorem extractUrlsAux_scanDecomp :
    ∀ (fuel : Nat) (l : List Char), l.length ≤ fuel →
      ScanDecomp l (extractUrlsAux fuel l) := by
  intro fuel
  induction fuel with
  | zero =>
    intro l hl
    have h0 : l = [] := List.eq_nil_of_length_eq_zero (Nat.le_zero.mp hl)
    subst h0
    exact scanDecomp_nil
  | succ fuel ih =>
    intro l hl
    cases l with
    | nil => exact scanDecomp_nil
    | cons c rest =>
      have hlen : rest.length ≤ fuel := by
        rw [List.length_cons] at hl
        omega
      cases hm : matchUrlScheme (c :: rest) with
      | none =>
        have hres : extractUrlsAux (fuel + 1) (c :: rest) =
            extractUrlsAux fuel rest := by
          conv_lhs => unfold extractUrlsAux
          rw [hm]
        rw [hres]
        exact scanDecomp_gapExtend c rest _ (ih rest hlen)
          (scanStepFails_of_none _ hm)
      | some pa =>
        obtain ⟨pre, after⟩ := pa
        obtain ⟨hpre, hdecomp⟩ := matchUrlScheme_eq_some _ _ _ hm
        by_cases hk :
            (stripTrailingPunct (after.takeWhile isUrlBodyChar)).isEmpty = true
        · have hk0 : stripTrailingPunct (after.takeWhile isUrlBodyChar) = [] :=
            List.isEmpty_iff.mp hk
          have hres : extractUrlsAux (fuel + 1) (c :: rest) =
              extractUrlsAux fuel rest := by
            conv_lhs => unfold extractUrlsAux
            rw [hm]
            simp [hk0]
          rw [hres]
          refine scanDecomp_gapExtend c rest _ (ih rest hlen) ?_
          intro pre' after' hm'
          rw [hm] at hm'
          injection hm' with hm''
          injection hm'' with h1 h2
          rw [← h2]
          exact hk0
        · have hkne : stripTrailingPunct (after.takeWhile isUrlBodyChar) ≠ [] := by
            intro h0
            exact hk (by rw [h0]; rfl)
          have hres : extractUrlsAux (fuel + 1) (c :: rest) =
              (pre ++ stripTrailingPunct (after.takeWhile isUrlBodyChar)) ::
                extractUrlsAux fuel (after.drop
                  (stripTrailingPunct (after.takeWhile isUrlBodyChar)).length) := by
            conv_lhs => unfold extractUrlsAux
            rw [hm]
            simp [hkne]
          rw [hres]
          have hresume := scan_resume_decomp after
          have hpre7 : 7 ≤ pre.length := by
            rcases hpre with h | h <;> rw [h] <;> simp
          have hlen2 : (after.drop (stripTrailingPunct
              (after.takeWhile isUrlBodyChar)).length).length ≤ fuel := by
            have e1 := congrArg List.length hdecomp
            have e2 := congrArg List.length hresume
            rw [List.length_cons, List.length_append] at e1
            rw [List.length_append] at e2
            have hk1 : 1 ≤ (stripTrailingPunct
                (after.takeWhile isUrlBodyChar)).length := by
              cases hx : stripTrailingPunct (after.takeWhile isUrlBodyChar) with
              | nil => exact absurd hx hkne
              | cons a b => simp
            omega
          refine ⟨[], after, _, ?_, ?_,
            ⟨pre, ?_, rfl, hkne, rfl⟩, ih _ hlen2⟩
          · rw [List.nil_append, List.append_assoc, ← hresume]
            exact hdecomp
          · intro y hy hyne
            obtain ⟨x, hx⟩ := hy
            have hx' := hx.symm
            rw [List.append_eq_nil] at hx'
            exact absurd hx'.2 hyne
          · rw [List.append_assoc, ← hresume, ← hdecomp]
            exact hm

theorem append_split_of_le {α : Type} :
    ∀ (a c b d : List α), a ++ b = c ++ d → a.length ≤ c.length →
      ∃ y, c = a ++ y := by
  intro a
  induction a with
  | nil => intro c b d h hl; exact ⟨c, rfl⟩
  | cons x xs ih =>
    intro c b d h hl
    cases c with
    | nil =>
      rw [List.length_cons] at hl
      simp at hl
    | cons z zs =>
      injection h with h1 h2
      obtain ⟨y, hy⟩ := ih zs b d h2
        (by rw [List.length_cons, List.length_cons] at hl; omega)
      subst h1
      refine ⟨y, ?_⟩
      rw [hy]
      rfl

theorem scanDecomp_gap_clash (l g1 u rest1 g2 v rest2 : List Char)
    (hl1 : l = g1 ++ u ++ rest1) (hl2 : l = g2 ++ v ++ rest2)
    (hfail : ∀ y, (∃ x, g2 = x ++ y) → y ≠ [] → scanStepFails (y ++ v ++ rest2))
    (hstep : ¬ scanStepFails (u ++ rest1))
    (hlt : g1.length < g2.length) : False := by
  have heqs : g1 ++ (u ++ rest1) = g2 ++ (v ++ rest2) := by
    rw [← List.append_assoc, ← hl1, hl2, List.append_assoc]
  obtain ⟨y, hy⟩ := append_split_of_le g1 g2 (u ++ rest1) (v ++ rest2)
    heqs (Nat.le_of_lt hlt)
  have hyne : y ≠ [] := by
    intro h0
    rw [h0, List.append_nil] at hy
    rw [hy] at hlt
    exact Nat.lt_irrefl _ hlt
  have hsuffix : u ++ rest1 = y ++ (v ++ rest2) := by
    have h3 : g1 ++ (u ++ rest1) = g1 ++ (y ++ (v ++ rest2)) := by
      rw [heqs, hy, List.append_assoc]
    exact List.append_cancel_left h3
  apply hstep
  rw [hsuffix, ← List.append_assoc]
  exact hfail y ⟨g1, hy⟩ hyne

theorem scanDecomp_unique :
    ∀ (us vs : List (List Char)) (l : List Char),
      ScanDecomp l us → ScanDecomp l vs → us = vs := by
  intro us
  induction us with
  | nil =>
    intro vs l h1 h2
    cases vs with
    | nil => rfl
    | cons v vs' =>
      obtain ⟨g, after, rest, hl, hgap, ⟨pre, hm, hv, hk, hr⟩, hrec⟩ := h2
      exact absurd (h1 (v ++ rest) ⟨g, by rw [hl, List.append_assoc]⟩ pre after hm) hk
  | cons u us' ih =>
    intro vs l h1 h2
    obtain ⟨g1, after1, rest1, hl1, hgap1, ⟨pre1, hm1, hu, hk1, hr1⟩, hrec1⟩ := h1
    cases vs with
    | nil =>
      exact absurd (h2 (u ++ rest1) ⟨g1, by rw [hl1, List.append_assoc]⟩
        pre1 after1 hm1) hk1
    | cons v vs' =>
      obtain ⟨g2, after2, rest2, hl2, hgap2, ⟨pre2, hm2, hv, hk2, hr2⟩, hrec2⟩ := h2
      have hstep1 : ¬ scanStepFails (u ++ rest1) := fun hs => hk1 (hs pre1 after1 hm1)
      have hstep2 : ¬ scanStepFails (v ++ rest2) := fun hs => hk2 (hs pre2 after2 hm2)
      rcases Nat.lt_trichotomy g1.length g2.length with hlt | heq | hgt
      · exact (scanDecomp_gap_clash l g1 u rest1 g2 v rest2
          hl1 hl2 hgap2 hstep1 hlt).elim
      · have heqs : g1 ++ (u ++ rest1) = g2 ++ (v ++ rest2) := by
          rw [← List.append_assoc, ← hl1, hl2, List.append_assoc]
        obtain ⟨-, htail⟩ := List.append_inj heqs heq
        rw [htail, hm2] at hm1
        injection hm1 with hm1'
        injection hm1' with hpe hae
        subst hpe
        subst hae
        have huv : u = v := by rw [hu, hv]
        have hrr : rest1 = rest2 := by rw [hr1, hr2]
        subst hrr
        rw [huv, ih vs' rest1 hrec1 hrec2]
      · exact (scanDecomp_gap_clash l g2 v rest2 g1 u rest1
          hl2 hl1 hgap1 hstep2 hgt).elim

/-- C4: URL extraction: `extract_urls` returns, in order of occurrence,
each substring of the input beginning with `http://` or `https://`
extended over the maximal run of characters allowed by the body class
(non-whitespace, non-CJK, non-bracket/quote), with the trailing run of
sentence punctuation `. , ; : ! ?` stripped from the end.  The output is
completely characterised: the input splits into alternating gap/match
segments (`ScanDecomp`), every match appears in the output at its
position of occurrence, no position inside a gap admits a match (none is
skipped), and the decomposition determines the output uniquely.  In
particular `「看這個 https://example.com 很有趣」` yields exactly
`["https://example.com"]`, a query string such as `?v=dQw4w9WgXcQ` and a
trailing `#` are preserved in full, and a trailing `.` or `,`
immediately after a URL is stripped. -/
theorem c4_extract_urls_spec :
    extract_urls "看這個 https://example.com 很有趣" = ["https://example.com"] ∧
    extract_urls "https://youtube.com/watch?v=dQw4w9WgXcQ" =
      ["https://youtube.com/watch?v=dQw4w9WgXcQ"] ∧
    extract_urls "https://example.com/page#" = ["https://example.com/page#"] ∧
    extract_urls "看 https://example.com. 和 https://a.bc," =
      ["https://example.com", "https://a.bc"] ∧
    (∀ content u, u ∈ extract_urls content →
      (∃ tail, (u.data = "https://".toList ++ tail ∨
          u.data = "http://".toList ++ tail) ∧
        tail ≠ [] ∧ (∀ c ∈ tail, isUrlBodyChar c = true) ∧
        ∃ c, tail.getLast? = some c ∧ isUrlFinalChar c = true) ∧
      ∃ a run b, content.toList = a ++ u.data ++ run ++ b ∧
        (∀ x ∈ run, trailingPunctCodes.contains x.toNat = true) ∧
        (b = [] ∨ ∃ d, b.head? = some d ∧ isUrlBodyChar d = false)) ∧
    (∀ content, ∃ us, extract_urls content = us.map List.asString ∧
      ScanDecomp content.toList us) ∧
    (∀ (l : List Char) (us vs : List (List Char)),
      ScanDecomp l us → ScanDecomp l vs → us = vs) := by
  refine ⟨by decide, by decide, by decide, by decide, ?_, ?_,
    fun l us vs h1 h2 => scanDecomp_unique us vs l h1 h2⟩
  · intro content u hu
    obtain ⟨cs, hcs, rfl⟩ := List.mem_map.mp hu
    constructor
    · exact extractUrlsAux_mem_spec _ _ cs hcs
    · exact extractUrlsAux_decomp _ _ cs hcs
  · intro content
    exact ⟨extractUrlsAux content.toList.length content.toList, rfl,
      extractUrlsAux_scanDecomp _ _ (le_refl _)⟩

/-- Closed witness for `c4_extract_urls_spec`: the URL extracted from
`"看這個 https://example.com 很有趣"` starts with `https://`, its tail is
a non-empty run of body-class characters, and it ends in a final-class
character. -/
theorem c4_extract_urls_witness :
    ∃ tail,
      ((("https://example.com" : String)).data = "https://".toList ++ tail ∨
        (("https://example.com" : String)).data = "http://".toList ++ tail) ∧
      tail ≠ [] ∧ (∀ c ∈ tail, isUrlBodyChar c = true) ∧
      ∃ c, tail.getLast? = some c ∧ isUrlFinalChar c = true :=
  ((c4_extract_urls_spec.2.2.2.2.1 "看這個 https://example.com 很有趣"
    "https://example.com" (by decide)).1)

/-! ### Link store lemmas -/

theorem linkFind_cons (r : LinkRow) (rest : List LinkRow) (url : String) :
    linkFind (r :: rest) url = if r.url = url then some r else linkFind rest url := by
  by_cases h : r.url = url
  · simp [linkFind, List.find?, h]
  · have hb : (r.url == url) = false := by simp [h]
    simp [linkFind, List.find?, h, hb]

theorem linkFind_map_merge (tbl : List LinkRow) (url : String) (m : LinkSources)
    (row : LinkRow) (h : linkFind tbl url = some row) :
    linkFind (tbl.map fun r => if r.url == url then { r with sources := m } else r)
      url = some { row with sources := m } := by
  induction tbl with
  | nil => cases h
  | cons r rest ih =>
    by_cases hr : r.url = url
    · rw [linkFind_cons, if_pos hr] at h
      injection h with h'
      subst h'
      have hb : (r.url == url) = true := by simp [hr]
      have hhead : (if r.url == url then { r with sources := m } else r) =
          { r with sources := m } := if_pos hb
      rw [List.map_cons, hhead, linkFind_cons]
      simp [hr]
    · rw [linkFind_cons, if_neg hr] at h
      have hb : (r.url == url) = false := by simp [hr]
      have hhead : (if r.url == url then { r with sources := m } else r) = r := by
        simp [hb]
      rw [List.map_cons, hhead, linkFind_cons, if_neg hr]
      exact ih h

theorem linkFind_map_merge_ne (tbl : List LinkRow) (url : String) (m : LinkSources)
    (url' : String) (hne : url' ≠ url) :
    linkFind (tbl.map fun r => if r.url == url then { r with sources := m } else r)
      url' = linkFind tbl url' := by
  induction tbl with
  | nil => rfl
  | cons r rest ih =>
    by_cases hr : r.url = url
    · have hb : (r.url == url) = true := by simp [hr]
      have hhead : (if r.url == url then { r with sources := m } else r) =
          { r with sources := m } := if_pos hb
      rw [List.map_cons, hhead, linkFind_cons, linkFind_cons]
      have hru : ¬ r.url = url' := by rw [hr]; exact fun hh => hne hh.symm
      have hru2 : ¬ ({ r with sources := m } : LinkRow).url = url' := hru
      rw [if_neg hru2, if_neg hru]
      exact ih
    · have hb : (r.url == url) = false := by simp [hr]
      have hhead : (if r.url == url then { r with sources := m } else r) = r := by
        simp [hb]
      rw [List.map_cons, hhead, linkFind_cons, linkFind_cons]
      by_cases hr' : r.url = url'
      · rw [if_pos hr', if_pos hr']
      · rw [if_neg hr', if_neg hr']
        exact ih

theorem map_linkNonSources (tbl : List LinkRow) (url : String) (m : LinkSources) :
    (tbl.map fun r => if r.url == url then { r with sources := m } else r).map
      linkNonSources = tbl.map linkNonSources := by
  induction tbl with
  | nil => rfl
  | cons r rest ih =>
    rw [List.map_cons, List.map_cons, List.map_cons, ih]
    by_cases hr : (r.url == url) = true
    · rw [if_pos hr]
      rfl
    · rw [if_neg hr]

theorem mergeIds_cons (base : List Int) (n : Int) (ns : List Int) :
    mergeIds base (n :: ns) =
      mergeIds (if n ∈ base then base else base ++ [n]) ns := by
  by_cases hn : n ∈ base <;> simp [mergeIds, hn]

theorem mergeIds_eq_append :
    ∀ (new base : List Int), ∃ added, mergeIds base new = base ++ added := by
  intro new
  induction new with
  | nil => exact fun base => ⟨[], by simp [mergeIds]⟩
  | cons n ns ih =>
    intro base
    rw [mergeIds_cons]
    by_cases hn : n ∈ base
    · rw [if_pos hn]; exact ih base
    · rw [if_neg hn]
      obtain ⟨added, hadded⟩ := ih (base ++ [n])
      exact ⟨[n] ++ added, by rw [hadded, List.append_assoc]⟩

theorem mem_mergeIds :
    ∀ (new base : List Int) (x : Int),
      x ∈ mergeIds base new ↔ x ∈ base ∨ x ∈ new := by
  intro new
  induction new with
  | nil => intro base x; simp [mergeIds]
  | cons n ns ih =>
    intro base x
    rw [mergeIds_cons]
    by_cases hn : n ∈ base
    · rw [if_pos hn, ih]
      simp only [List.mem_cons]
      constructor
      · rintro (hx | hx)
        · exact Or.inl hx
        · exact Or.inr (Or.inr hx)
      · rintro (hx | rfl | hx)
        · exact Or.inl hx
        · exact Or.inl hn
        · exact Or.inr hx
    · rw [if_neg hn, ih]
      simp only [List.mem_append, List.mem_cons, List.not_mem_nil, or_false]
      tauto

theorem nodup_mergeIds :
    ∀ (new base : List Int), base.Nodup → (mergeIds base new).Nodup := by
  intro new
  induction new with
  | nil => intro base h; simpa [mergeIds] using h
  | cons n ns ih =>
    intro base h
    rw [mergeIds_cons]
    by_cases hn : n ∈ base
    · rw [if_pos hn]; exact ih base h
    · rw [if_neg hn]
      refine ih (base ++ [n]) (h.append (List.nodup_singleton n) ?_)
      simpa [List.disjoint_singleton] using hn

theorem sortedMergedIds_spec (old new : List Int) :
    List.Sorted (· ≤ ·) (sortedMergedIds old new) ∧
    (sortedMergedIds old new).Nodup ∧
    ∀ x, x ∈ sortedMergedIds old new ↔ x ∈ old ∨ x ∈ new := by
  refine ⟨List.sorted_insertionSort _ _,
    (List.perm_insertionSort _ _).nodup_iff.mpr (List.nodup_dedup _), fun x => ?_⟩
  unfold sortedMergedIds
  rw [(List.perm_insertionSort _ _).mem_iff, List.mem_dedup, List.mem_append]

/-- C5: First-sight classification: a URL not yet in the link store is
inserted with status `"image"` exactly when its `urlparse` path
component (lowercased; query string, fragment and `;params` not
included) ends with one of the fixed image extensions, and with status
`"pending"` otherwise; `"https://example.com/PHOTO.JPG?x=1"` and
`"https://example.com/a.jpg;v=2"` (the params split off the path) are
inserted as image and `"https://example.com/page"` as pending. -/
theorem c5_first_sight_classification :
    (∀ (tbl : List LinkRow) (url : String) (new_sources : LinkSources),
      linkFind tbl url = none →
      upsert_link tbl url new_sources =
        (tbl ++ [{ url := url, og_title := none, og_description := none,
                   og_site_name := none, sources := new_sources,
                   status := if is_image_url url then "image" else "pending",
                   fetched_at := none }], true)) ∧
    (∀ url : String, is_image_url url = true ↔
      ∃ ext ∈ IMAGE_EXTENSIONS,
        endsWithChars ((urlPath url).map Char.toLower) ext.data = true) ∧
    (upsert_link [] "https://example.com/PHOTO.JPG?x=1" ⟨[], []⟩).1.map
      LinkRow.status = ["image"] ∧
    (upsert_link [] "https://example.com/a.jpg;v=2" ⟨[], []⟩).1.map
      LinkRow.status = ["image"] ∧
    (upsert_link [] "https://example.com/page" ⟨[], []⟩).1.map
      LinkRow.status = ["pending"] := by
  refine ⟨?_, ?_, by decide, by decide, by decide⟩
  · intro tbl url s h
    simp [upsert_link, h]
  · intro url
    simp [is_image_url, List.any_eq_true]

/-- Closed witness for `c5_first_sight_classification`: inserting
`"https://example.com/PHOTO.JPG?x=1"` into an empty store appends one
row whose status is decided by `is_image_url`. -/
theorem c5_first_sight_witness :
    upsert_link [] "https://example.com/PHOTO.JPG?x=1" ⟨[], []⟩ =
      ([{ url := "https://example.com/PHOTO.JPG?x=1", og_title := none,
          og_description := none, og_site_name := none, sources := ⟨[], []⟩,
          status := if is_image_url "https://example.com/PHOTO.JPG?x=1" then
            "image" else "pending",
          fetched_at := none }], true) := by
  have h := c5_first_sight_classification.1 []
    "https://example.com/PHOTO.JPG?x=1" ⟨[], []⟩ rfl
  simpa using h

/-- C6 (amended): on re-sight of a stored URL, `upsert_link` replaces its
sources with the duplicate-free union of the old and new plurk-id and
response-id lists in ascending order and leaves every other field of
every row unchanged; `merge_url_sources`, however, unions the id lists
per URL with duplicates removed in first-seen insertion order (the
existing list first, then unseen new ids in order of appearance), not in
sorted order. -/
theorem c6_merge_on_resight :
    (∀ (tbl : List LinkRow) (url : String) (new_sources : LinkSources)
        (row : LinkRow), linkFind tbl url = some row →
      (upsert_link tbl url new_sources).2 = false ∧
      linkFind (upsert_link tbl url new_sources).1 url =
        some { row with sources :=
          ⟨sortedMergedIds row.sources.plurk_ids new_sources.plurk_ids,
           sortedMergedIds row.sources.response_ids new_sources.response_ids⟩ } ∧
      (∀ url', url' ≠ url →
        linkFind (upsert_link tbl url new_sources).1 url' = linkFind tbl url') ∧
      (upsert_link tbl url new_sources).1.map linkNonSources =
        tbl.map linkNonSources) ∧
    (∀ old new : List Int,
      List.Sorted (· ≤ ·) (sortedMergedIds old new) ∧
      (sortedMergedIds old new).Nodup ∧
      ∀ x, x ∈ sortedMergedIds old new ↔ x ∈ old ∨ x ∈ new) ∧
    (∀ (u : String) (s₁ s₂ : LinkSources),
      merge_url_sources [(u, s₁)] [(u, s₂)] =
        [(u, ⟨mergeIds s₁.plurk_ids s₂.plurk_ids,
              mergeIds s₁.response_ids s₂.response_ids⟩)]) ∧
    (∀ base new : List Int,
      (∃ added, mergeIds base new = base ++ added) ∧
      (∀ x, x ∈ mergeIds base new ↔ x ∈ base ∨ x ∈ new) ∧
      (base.Nodup → (mergeIds base new).Nodup)) := by
  refine ⟨?_, sortedMergedIds_spec, ?_, fun base new =>
    ⟨mergeIds_eq_append new base, mem_mergeIds new base,
     nodup_mergeIds new base⟩⟩
  · intro tbl url new_sources row h
    have hstate : upsert_link tbl url new_sources =
        (tbl.map fun r => if r.url == url then
          { r with sources :=
            ⟨sortedMergedIds row.sources.plurk_ids new_sources.plurk_ids,
             sortedMergedIds row.sources.response_ids new_sources.response_ids⟩ }
          else r, false) := by
      simp [upsert_link, h]
    rw [hstate]
    exact ⟨rfl, linkFind_map_merge tbl url _ row h,
      fun url' hne => linkFind_map_merge_ne tbl url _ url' hne,
      map_linkNonSources tbl url _⟩
  · intro u s₁ s₂
    simp [merge_url_sources]

/-- Counterexample for C6 as stated: merging the in-memory source
dictionaries `{u: {plurk_ids: [3]}}` and `{u: {plurk_ids: [1]}}` yields
the id list `[3, 1]`, which is not in sorted order (the sorted union
would be `[1, 3]`). -/
theorem c6_merge_counterexample :
    merge_url_sources [("u", ⟨[3], []⟩)] [("u", ⟨[1], []⟩)] =
      [("u", ⟨[3, 1], []⟩)] ∧
    ¬ List.Sorted (· ≤ ·) ([3, 1] : List Int) := by
  constructor
  · decide
  · decide

/-- Closed witness for `c6_merge_on_resight`: re-upserting URL `"u"`
(stored with plurk ids `[3]`) with new plurk ids `[3, 1]` merges the
sources into the sorted duplicate-free union and keeps the status. -/
theorem c6_merge_on_resight_witness :
    linkFind (upsert_link [⟨"u", none, none, none, ⟨[3], []⟩, "pending", none⟩]
        "u" ⟨[3, 1], []⟩).1 "u" =
      some ⟨"u", none, none, none,
        ⟨sortedMergedIds [3] [3, 1], sortedMergedIds [] []⟩, "pending", none⟩ :=
  (c6_merge_on_resight.1 [⟨"u", none, none, none, ⟨[3], []⟩, "pending", none⟩]
    "u" ⟨[3, 1], []⟩ ⟨"u", none, none, none, ⟨[3], []⟩, "pending", none⟩
    (by decide)).2.1

/-- C7: Index rebuild is idempotent and entity-preserving: for every
database state, `rebuild_fts` leaves every row of the `plurks`,
`responses` and `link_metadata` tables unchanged, and running it twice
in succession with the same tokenizer produces the same database state —
full-text-index contents included — and the same counts as running it
once. -/
theorem c7_rebuild_fts_idempotent :
    ∀ (db : DBState) (tokenizer : String),
      (rebuild_fts db tokenizer).1.plurks = db.plurks ∧
      (rebuild_fts db tokenizer).1.responses = db.responses ∧
      (rebuild_fts db tokenizer).1.link_metadata = db.link_metadata ∧
      rebuild_fts (rebuild_fts db tokenizer).1 tokenizer =
        rebuild_fts db tokenizer := by
  intro db tokenizer
  cases h : db.link_metadata with
  | none => simp [rebuild_fts, create_schema_fts, h]
  | some rows => simp [rebuild_fts, create_schema_fts, h]

/-! ### Archive parser lemmas

The failure-condition claim needs one non-trivial fact: a payload that
`json.loads` accepts and whose last character is `]` is an array.  The
proof tracks, through every parser, the character standing right before
the un-consumed remainder. -/

theorem skipWs_decomp (l : List Char) : ∃ w, l = w ++ skipWs l :=
  ⟨l.takeWhile isJsonWs, (List.takeWhile_append_dropWhile isJsonWs l).symm⟩

theorem skipWs_eq_nil (l : List Char) (h : skipWs l = []) :
    ∀ c ∈ l, isJsonWs c = true := by
  intro c hc
  by_contra hnot
  have := List.dropWhile_eq_nil_iff.mp h c hc
  exact hnot this

theorem dropPrefixChars_eq :
    ∀ (p l r : List Char), dropPrefixChars p l = some r → l = p ++ r := by
  intro p
  induction p with
  | nil =>
    intro l r h
    simp only [dropPrefixChars, Option.some.injEq] at h
    rw [← h]
    rfl
  | cons x xs ih =>
    intro l r h
    cases l with
    | nil => cases h
    | cons c cs =>
      unfold dropPrefixChars at h
      by_cases hx : x = c
      · rw [if_pos hx] at h
        rw [List.cons_append, ← ih cs r h, hx]
      · rw [if_neg hx] at h
        cases h

theorem hex4_suffix (l : List Char) (v : Nat) (r : List Char)
    (h : hex4 l = some (v, r)) : ∃ pre, l = pre ++ r := by
  match l with
  | [] => cases h
  | [a] => cases h
  | [a, b] => cases h
  | [a, b, c] => cases h
  | a :: b :: c :: d :: rest =>
    refine ⟨[a, b, c, d], ?_⟩
    unfold hex4 at h
    cases ha : hexDigitVal a <;> cases hb : hexDigitVal b <;>
      cases hc : hexDigitVal c <;> cases hd : hexDigitVal d <;>
      simp_all

theorem parseStrAux_last :
    ∀ (fuel : Nat) (acc l : List Char) (s : String) (rest : List Char),
      parseStrAux fuel acc l = some (s, rest) → ∃ pre, l = pre ++ '"' :: rest := by
  intro fuel
  induction fuel with
  | zero => intro acc l s rest h; cases h
  | succ fuel ih =>
    intro acc l s rest h
    unfold parseStrAux at h
    split at h
    · cases h
    · injection h with h'
      injection h' with _ hr
      exact ⟨[], by rw [hr]; rfl⟩
    · rename_i rest₁
      split at h
      · cases h
      · rename_i cs₁ k heq
        obtain ⟨pre₂, hpre₂⟩ := ih _ _ s rest h
        refine ⟨'\\' :: rest₁.take k ++ pre₂, ?_⟩
        conv_lhs => rw [← List.take_append_drop k rest₁]
        rw [hpre₂]
        simp
    · rename_i c rest₁ hne1 hne2
      split at h
      · cases h
      · obtain ⟨pre, hpre⟩ := ih _ _ s rest h
        exact ⟨c :: pre, by simp [hpre]⟩

theorem digits_end (ds : List Char) (hne : ds ≠ [])
    (hall : ∀ c ∈ ds, c.isDigit = true) :
    ∃ p d, ds = p ++ [d] ∧ d.isDigit = true :=
  ⟨ds.dropLast, ds.getLast hne, (List.dropLast_append_getLast hne).symm,
    hall _ (List.getLast_mem hne)⟩

theorem parseUIntPart_spec (l ds r : List Char)
    (h : parseUIntPart l = some (ds, r)) :
    ds ≠ [] ∧ (∀ c ∈ ds, c.isDigit = true) ∧ l = ds ++ r := by
  unfold parseUIntPart at h
  split at h
  · simp only [Option.some.injEq, Prod.mk.injEq] at h
    obtain ⟨h1, h2⟩ := h
    subst h1; subst h2
    refine ⟨by simp, ?_, rfl⟩
    intro c hc
    simp only [List.mem_singleton] at hc
    subst hc
    decide
  · rename_i c cs
    split at h
    · rename_i hc
      simp only [takeDigits, Option.some.injEq, Prod.mk.injEq] at h
      obtain ⟨h1, h2⟩ := h
      subst h1; subst h2
      refine ⟨?_, ?_, (List.takeWhile_append_dropWhile _ _).symm⟩
      · simp [List.takeWhile_cons, hc]
      · intro x hx
        exact List.mem_takeWhile_imp hx
    · cases h
  · cases h

theorem parseIntPart_spec (l : List Char) (neg : Bool) (ids l₂ : List Char)
    (h : parseIntPart l = some (neg, ids, l₂)) :
    ids ≠ [] ∧ (∀ c ∈ ids, c.isDigit = true) ∧
      l = (if neg then ['-'] else []) ++ ids ++ l₂ := by
  unfold parseIntPart at h
  split at h
  · rename_i r
    cases hu : parseUIntPart r with
    | none => rw [hu] at h; cases h
    | some p =>
      obtain ⟨ds, rr⟩ := p
      rw [hu] at h
      simp only [Option.map_some', Option.some.injEq, Prod.mk.injEq] at h
      obtain ⟨hneg, hids, hl₂⟩ := h
      subst hneg; subst hids; subst hl₂
      obtain ⟨h1, h2, h3⟩ := parseUIntPart_spec r ds rr hu
      exact ⟨h1, h2, by simp [h3]⟩
  · cases hu : parseUIntPart l with
    | none => rw [hu] at h; cases h
    | some p =>
      obtain ⟨ds, rr⟩ := p
      rw [hu] at h
      simp only [Option.map_some', Option.some.injEq, Prod.mk.injEq] at h
      obtain ⟨hneg, hids, hl₂⟩ := h
      subst hneg; subst hids; subst hl₂
      obtain ⟨h1, h2, h3⟩ := parseUIntPart_spec l ds rr hu
      exact ⟨h1, h2, by simp [h3]⟩

theorem parseFracPart_spec (l fds r : List Char)
    (h : parseFracPart l = (fds, r)) :
    (fds = [] ∧ r = l) ∨
      (fds ≠ [] ∧ (∀ c ∈ fds, c.isDigit = true) ∧ l = '.' :: (fds ++ r)) := by
  unfold parseFracPart at h
  split at h
  · rename_i rr
    split at h
    · left
      simp only [Prod.mk.injEq] at h
      exact ⟨h.1.symm, h.2.symm⟩
    · right
      rename_i hne
      simp only [takeDigits, Prod.mk.injEq] at h
      obtain ⟨h1, h2⟩ := h
      subst h1; subst h2
      refine ⟨?_, ?_, ?_⟩
      · intro hc
        apply hne
        simp [takeDigits, hc]
      · intro c hc
        exact List.mem_takeWhile_imp hc
      · rw [List.takeWhile_append_dropWhile]
  · left
    simp only [Prod.mk.injEq] at h
    exact ⟨h.1.symm, h.2.symm⟩

theorem parseExpSign_decomp (l : List Char) :
    ∃ pre, l = pre ++ (parseExpSign l).2 := by
  unfold parseExpSign
  split
  · exact ⟨['+'], rfl⟩
  · exact ⟨['-'], rfl⟩
  · exact ⟨[], rfl⟩

theorem parseExpPart_spec (l : List Char) (eo : Option Int) (r : List Char)
    (h : parseExpPart l = (eo, r)) :
    r = l ∨ ∃ mid ds, ds ≠ [] ∧ (∀ c ∈ ds, c.isDigit = true) ∧
      l = mid ++ ds ++ r := by
  unfold parseExpPart at h
  split at h
  · rename_i c rr
    split at h
    · split at h
      · left
        simp only [Prod.mk.injEq] at h
        exact h.2.symm
      · right
        rename_i hne
        simp only [Prod.mk.injEq] at h
        obtain ⟨-, h2⟩ := h
        obtain ⟨pre, hpre⟩ := parseExpSign_decomp rr
        refine ⟨c :: pre, (takeDigits (parseExpSign rr).2).1, ?_, ?_, ?_⟩
        · simpa [List.isEmpty_iff] using hne
        · intro x hx
          simp only [takeDigits] at hx
          exact List.mem_takeWhile_imp hx
        · subst h2
          conv_lhs => rw [hpre]
          simp [takeDigits]
    · left
      simp only [Prod.mk.injEq] at h
      exact h.2.symm
  · left
    simp only [Prod.mk.injEq] at h
    exact h.2.symm

theorem parseNumber_last (l : List Char) (j : Json) (rest : List Char)
    (h : parseNumber l = some (j, rest)) :
    (∃ pre d, l = pre ++ d :: rest ∧ d.isDigit = true) ∧
      ∃ f m e, j = Json.num f m e := by
  unfold parseNumber at h
  cases hip : parseIntPart l with
  | none => rw [hip] at h; cases h
  | some t =>
    obtain ⟨neg, ids, l₂⟩ := t
    rw [hip] at h
    simp only [Option.some.injEq, Prod.mk.injEq] at h
    obtain ⟨hj, hrest⟩ := h
    obtain ⟨hids_ne, hids_dig, hl⟩ := parseIntPart_spec l neg ids l₂ hip
    refine ⟨?_, _, _, _, hj.symm⟩
    have he : parseExpPart (parseFracPart l₂).2 =
        ((parseExpPart (parseFracPart l₂).2).1, rest) := by
      rw [← hrest]
    rcases parseExpPart_spec _ _ _ he with hr | ⟨mid, ds, hds_ne, hds_dig, hsplit⟩
    · rcases parseFracPart_spec l₂ (parseFracPart l₂).1 (parseFracPart l₂).2 rfl
        with ⟨hF1, hF2⟩ | ⟨hne2, hdig2, hsplit2⟩
      · obtain ⟨p, d, hpd, hd⟩ := digits_end ids hids_ne hids_dig
        refine ⟨(if neg then ['-'] else []) ++ p, d, ?_, hd⟩
        have hlr : l₂ = rest := by rw [hr, hF2]
        rw [hl, hpd, hlr]
        simp
      · obtain ⟨p, d, hpd, hd⟩ :=
          digits_end (parseFracPart l₂).1 hne2 hdig2
        refine ⟨(if neg then ['-'] else []) ++ ids ++ '.' :: p, d, ?_, hd⟩
        rw [hl, hsplit2, hpd, hr]
        simp
    · have hfc : ∃ fc, l₂ = fc ++ (parseFracPart l₂).2 := by
        rcases parseFracPart_spec l₂ (parseFracPart l₂).1 (parseFracPart l₂).2 rfl
          with ⟨h1, h2⟩ | ⟨h1, h2, h3⟩
        · exact ⟨[], h2.symm⟩
        · refine ⟨'.' :: (parseFracPart l₂).1, ?_⟩
          conv_lhs => rw [h3]
          rw [List.cons_append]
      obtain ⟨fc, hfc⟩ := hfc
      obtain ⟨p, d, hpd, hd⟩ := digits_end ds hds_ne hds_dig
      refine ⟨(if neg then ['-'] else []) ++ ids ++ fc ++ mid ++ p, d, ?_, hd⟩
      rw [hl, hfc, hsplit, hpd]
      simp

theorem parse_suffix_main : ∀ fuel : Nat,
    (∀ l j rest, parseValue fuel l = some (j, rest) →
      ∃ pre c, l = pre ++ c :: rest ∧ lastCharOk j c) ∧
    (∀ l acc es rest, parseElemsRest fuel l acc = some (es, rest) →
      ∃ pre, l = pre ++ ']' :: rest) ∧
    (∀ l acc ms rest, parseMembersRest fuel l acc = some (ms, rest) →
      ∃ pre, l = pre ++ '}' :: rest) := by
  intro fuel
  induction fuel with
  | zero =>
    refine ⟨?_, ?_, ?_⟩
    · intro l j rest h; cases h
    · intro l acc es rest h; cases h
    · intro l acc ms rest h; cases h
  | succ fuel ih =>
    obtain ⟨ihV, ihE, ihM⟩ := ih
    refine ⟨?_, ?_, ?_⟩
    · intro l j rest h
      unfold parseValue at h
      split at h
      · cases h
      · rename_i c rest₀ hsk
        obtain ⟨w, hw⟩ := skipWs_decomp l
        rw [hsk] at hw
        by_cases hc1 : c = '"'
        · rw [if_pos hc1] at h
          cases hps : parseStrAux (rest₀.length + 1) [] rest₀ with
          | none => rw [hps] at h; cases h
          | some p =>
            obtain ⟨s, rest'⟩ := p
            rw [hps] at h
            simp only [Option.some.injEq, Prod.mk.injEq] at h
            obtain ⟨hj, hr⟩ := h
            subst hr
            obtain ⟨pre, hpre⟩ := parseStrAux_last _ _ _ _ _ hps
            refine ⟨w ++ c :: pre, '"', ?_, by rw [← hj]; rfl⟩
            rw [hw, hpre]
            simp
        rw [if_neg hc1] at h
        by_cases hc2 : c = '['
        · rw [if_pos hc2] at h
          split at h
          · rename_i rest₂ hsk2
            simp only [Option.some.injEq, Prod.mk.injEq] at h
            obtain ⟨hj, hr⟩ := h
            subst hr
            obtain ⟨w₂, hw₂⟩ := skipWs_decomp rest₀
            rw [hsk2] at hw₂
            refine ⟨w ++ c :: w₂, ']', ?_, by rw [← hj]; rfl⟩
            rw [hw, hw₂]
            simp
          · cases hpv : parseValue fuel (skipWs rest₀) with
            | none => rw [hpv] at h; cases h
            | some q =>
              obtain ⟨j₁, rest₂⟩ := q
              rw [hpv] at h
              simp only [] at h
              cases hpe : parseElemsRest fuel rest₂ [j₁] with
              | none => rw [hpe] at h; cases h
              | some r =>
                obtain ⟨es, rest₃⟩ := r
                rw [hpe] at h
                simp only [Option.some.injEq, Prod.mk.injEq] at h
                obtain ⟨hj, hr⟩ := h
                subst hr
                obtain ⟨w₂, hw₂⟩ := skipWs_decomp rest₀
                obtain ⟨pre₁, c₁, hpre₁, -⟩ := ihV _ _ _ hpv
                obtain ⟨pre₂, hpre₂⟩ := ihE _ _ _ _ hpe
                refine ⟨w ++ c :: (w₂ ++ (pre₁ ++ c₁ :: pre₂)), ']', ?_,
                  by rw [← hj]; rfl⟩
                rw [hw, hw₂, hpre₁, hpre₂]
                simp
        rw [if_neg hc2] at h
        by_cases hc3 : c = '{'
        · rw [if_pos hc3] at h
          split at h
          · rename_i rest₂ hsk2
            simp only [Option.some.injEq, Prod.mk.injEq] at h
            obtain ⟨hj, hr⟩ := h
            subst hr
            obtain ⟨w₂, hw₂⟩ := skipWs_decomp rest₀
            rw [hsk2] at hw₂
            refine ⟨w ++ c :: w₂, '}', ?_, by rw [← hj]; rfl⟩
            rw [hw, hw₂]
            simp
          · rename_i rest₂ hsk2
            cases hps : parseStrAux (rest₂.length + 1) [] rest₂ with
            | none => rw [hps] at h; cases h
            | some p =>
              obtain ⟨key, rest₃⟩ := p
              rw [hps] at h
              simp only [] at h
              split at h
              · rename_i rest₄ hsk3
                cases hpv : parseValue fuel rest₄ with
                | none => rw [hpv] at h; cases h
                | some q =>
                  obtain ⟨v, rest₅⟩ := q
                  rw [hpv] at h
                  simp only [] at h
                  cases hpm : parseMembersRest fuel rest₅ [(key, v)] with
                  | none => rw [hpm] at h; cases h
                  | some r =>
                    obtain ⟨ms, rest₆⟩ := r
                    rw [hpm] at h
                    simp only [Option.some.injEq, Prod.mk.injEq] at h
                    obtain ⟨hj, hr⟩ := h
                    subst hr
                    obtain ⟨w₂, hw₂⟩ := skipWs_decomp rest₀
                    rw [hsk2] at hw₂
                    obtain ⟨preS, hpreS⟩ := parseStrAux_last _ _ _ _ _ hps
                    obtain ⟨w₃, hw₃⟩ := skipWs_decomp rest₃
                    rw [hsk3] at hw₃
                    obtain ⟨pre₁, c₁, hpre₁, -⟩ := ihV _ _ _ hpv
                    obtain ⟨pre₂, hpre₂⟩ := ihM _ _ _ _ hpm
                    refine ⟨w ++ c :: (w₂ ++ '"' :: (preS ++ '"' ::
                      (w₃ ++ ':' :: (pre₁ ++ c₁ :: pre₂)))), '}', ?_,
                      by rw [← hj]; rfl⟩
                    rw [hw, hw₂, hpreS, hw₃, hpre₁, hpre₂]
                    simp
              · cases h
          · cases h
        rw [if_neg hc3] at h
        by_cases hc4 : c = 'n'
        · rw [if_pos hc4] at h
          cases hd : dropPrefixChars "ull".data rest₀ with
          | none => rw [hd] at h; cases h
          | some rest' =>
            rw [hd] at h
            simp only [Option.some.injEq, Prod.mk.injEq] at h
            obtain ⟨hj, hr⟩ := h
            subst hr
            have hre := dropPrefixChars_eq _ _ _ hd
            have hud : ("ull").data = ['u', 'l'] ++ ['l'] := rfl
            refine ⟨w ++ c :: ['u', 'l'], 'l', ?_, by rw [← hj]; rfl⟩
            rw [hw, hre, hud]
            simp
        rw [if_neg hc4] at h
        by_cases hc5 : c = 't'
        · rw [if_pos hc5] at h
          cases hd : dropPrefixChars "rue".data rest₀ with
          | none => rw [hd] at h; cases h
          | some rest' =>
            rw [hd] at h
            simp only [Option.some.injEq, Prod.mk.injEq] at h
            obtain ⟨hj, hr⟩ := h
            subst hr
            have hre := dropPrefixChars_eq _ _ _ hd
            have hud : ("rue").data = ['r', 'u'] ++ ['e'] := rfl
            refine ⟨w ++ c :: ['r', 'u'], 'e', ?_, by rw [← hj]; rfl⟩
            rw [hw, hre, hud]
            simp
        rw [if_neg hc5] at h
        by_cases hc6 : c = 'f'
        · rw [if_pos hc6] at h
          cases hd : dropPrefixChars "alse".data rest₀ with
          | none => rw [hd] at h; cases h
          | some rest' =>
            rw [hd] at h
            simp only [Option.some.injEq, Prod.mk.injEq] at h
            obtain ⟨hj, hr⟩ := h
            subst hr
            have hre := dropPrefixChars_eq _ _ _ hd
            have hud : ("alse").data = ['a', 'l', 's'] ++ ['e'] := rfl
            refine ⟨w ++ c :: ['a', 'l', 's'], 'e', ?_, by rw [← hj]; rfl⟩
            rw [hw, hre, hud]
            simp
        rw [if_neg hc6] at h
        by_cases hc7 : c = 'N'
        · rw [if_pos hc7] at h
          cases hd : dropPrefixChars "aN".data rest₀ with
          | none => rw [hd] at h; cases h
          | some rest' =>
            rw [hd] at h
            simp only [Option.some.injEq, Prod.mk.injEq] at h
            obtain ⟨hj, hr⟩ := h
            subst hr
            have hre := dropPrefixChars_eq _ _ _ hd
            have hud : ("aN").data = ['a'] ++ ['N'] := rfl
            refine ⟨w ++ c :: ['a'], 'N', ?_, by rw [← hj]; rfl⟩
            rw [hw, hre, hud]
            simp
        rw [if_neg hc7] at h
        by_cases hc8 : c = 'I'
        · rw [if_pos hc8] at h
          cases hd : dropPrefixChars "nfinity".data rest₀ with
          | none => rw [hd] at h; cases h
          | some rest' =>
            rw [hd] at h
            simp only [Option.some.injEq, Prod.mk.injEq] at h
            obtain ⟨hj, hr⟩ := h
            subst hr
            have hre := dropPrefixChars_eq _ _ _ hd
            have hud : ("nfinity").data = ['n', 'f', 'i', 'n', 'i', 't'] ++ ['y'] := rfl
            refine ⟨w ++ c :: ['n', 'f', 'i', 'n', 'i', 't'], 'y', ?_,
              by rw [← hj]; rfl⟩
            rw [hw, hre, hud]
            simp
        rw [if_neg hc8] at h
        by_cases hc9 : c = '-'
        · rw [if_pos hc9] at h
          cases hd : dropPrefixChars "Infinity".data rest₀ with
          | some rest' =>
            rw [hd] at h
            simp only [Option.some.injEq, Prod.mk.injEq] at h
            obtain ⟨hj, hr⟩ := h
            subst hr
            have hre := dropPrefixChars_eq _ _ _ hd
            have hud : ("Infinity").data =
              ['I', 'n', 'f', 'i', 'n', 'i', 't'] ++ ['y'] := rfl
            refine ⟨w ++ c :: ['I', 'n', 'f', 'i', 'n', 'i', 't'], 'y', ?_,
              by rw [← hj]; rfl⟩
            rw [hw, hre, hud]
            simp
          | none =>
            rw [hd] at h
            obtain ⟨⟨pre, d, hpd, hdig⟩, f, m, e, hj⟩ := parseNumber_last _ _ _ h
            refine ⟨w ++ pre, d, ?_, by rw [hj]; exact hdig⟩
            rw [hw, hpd]
            simp
        rw [if_neg hc9] at h
        by_cases hc10 : c.isDigit = true
        · rw [if_pos hc10] at h
          obtain ⟨⟨pre, d, hpd, hdig⟩, f, m, e, hj⟩ := parseNumber_last _ _ _ h
          refine ⟨w ++ pre, d, ?_, by rw [hj]; exact hdig⟩
          rw [hw, hpd]
          simp
        · rw [if_neg hc10] at h
          cases h
    · intro l acc es rest h
      unfold parseElemsRest at h
      split at h
      · rename_i rest₁ hsk
        simp only [Option.some.injEq, Prod.mk.injEq] at h
        obtain ⟨-, hr⟩ := h
        subst hr
        obtain ⟨w, hw⟩ := skipWs_decomp l
        rw [hsk] at hw
        exact ⟨w, hw⟩
      · rename_i rest₁ hsk
        cases hpv : parseValue fuel rest₁ with
        | none => rw [hpv] at h; cases h
        | some q =>
          obtain ⟨j₁, rest₂⟩ := q
          rw [hpv] at h
          simp only [] at h
          obtain ⟨pre₂, hpre₂⟩ := ihE _ _ _ _ h
          obtain ⟨pre₁, c₁, hpre₁, -⟩ := ihV _ _ _ hpv
          obtain ⟨w, hw⟩ := skipWs_decomp l
          rw [hsk] at hw
          refine ⟨w ++ ',' :: (pre₁ ++ c₁ :: pre₂), ?_⟩
          rw [hw, hpre₁, hpre₂]
          simp
      · cases h
    · intro l acc ms rest h
      unfold parseMembersRest at h
      split at h
      · rename_i rest₁ hsk
        simp only [Option.some.injEq, Prod.mk.injEq] at h
        obtain ⟨-, hr⟩ := h
        subst hr
        obtain ⟨w, hw⟩ := skipWs_decomp l
        rw [hsk] at hw
        exact ⟨w, hw⟩
      · rename_i rest₁ hsk
        split at h
        · rename_i rest₂ hsk2
          cases hps : parseStrAux (rest₂.length + 1) [] rest₂ with
          | none => rw [hps] at h; cases h
          | some p =>
            obtain ⟨key, rest₃⟩ := p
            rw [hps] at h
            simp only [] at h
            split at h
            · rename_i rest₄ hsk3
              cases hpv : parseValue fuel rest₄ with
              | none => rw [hpv] at h; cases h
              | some q =>
                obtain ⟨v, rest₅⟩ := q
                rw [hpv] at h
                simp only [] at h
                obtain ⟨pre₂, hpre₂⟩ := ihM _ _ _ _ h
                obtain ⟨pre₁, c₁, hpre₁, -⟩ := ihV _ _ _ hpv
                obtain ⟨w, hw⟩ := skipWs_decomp l
                rw [hsk] at hw
                obtain ⟨w₂, hw₂⟩ := skipWs_decomp rest₁
                rw [hsk2] at hw₂
                obtain ⟨preS, hpreS⟩ := parseStrAux_last _ _ _ _ _ hps
                obtain ⟨w₃, hw₃⟩ := skipWs_decomp rest₃
                rw [hsk3] at hw₃
                refine ⟨w ++ ',' :: (w₂ ++ '"' :: (preS ++ '"' ::
                  (w₃ ++ ':' :: (pre₁ ++ c₁ :: pre₂)))), ?_⟩
                rw [hw, hw₂, hpreS, hw₃, hpre₁, hpre₂]
                simp
            · cases h
        · cases h
      · cases h

theorem rfindRBracket_spec :
    ∀ (l : List Char) (r : Nat), rfindRBracket l = some r →
      ∃ pre suf, l = pre ++ ']' :: suf ∧ pre.length = r := by
  intro l
  induction l with
  | nil => intro r h; cases h
  | cons c rest ih =>
    intro r h
    unfold rfindRBracket at h
    cases hr : rfindRBracket rest with
    | some i =>
      rw [hr] at h
      simp only [Option.some.injEq] at h
      obtain ⟨pre, suf, hps, hlen⟩ := ih i hr
      exact ⟨c :: pre, suf, by rw [hps]; rfl,
        by simp [List.length_cons, hlen, ← h]⟩
    | none =>
      rw [hr] at h
      simp only [] at h
      split at h
      · rename_i hc
        simp only [Option.some.injEq] at h
        exact ⟨[], rest, by rw [hc]; rfl, by simp [← h]⟩
      · cases h

theorem payloadSlice_ends (content : String) :
    payloadSlice content = [] ∨ ∃ pre, payloadSlice content = pre ++ [']'] := by
  cases hf : findEqIdx content.data with
  | none =>
    left
    unfold payloadSlice
    rw [hf]
  | some i =>
    cases hr : rfindRBracket content.data with
    | none =>
      left
      unfold payloadSlice
      rw [hf, hr]
    | some r =>
      have hps' : payloadSlice content =
          (content.data.take (r + 1)).drop (i + 2) := by
        unfold payloadSlice
        rw [hf, hr]
      rw [hps']
      obtain ⟨pre, suf, hps, hlen⟩ := rfindRBracket_spec _ _ hr
      have htake : content.data.take (r + 1) = pre ++ [']'] := by
        rw [hps, ← hlen, List.take_append_eq_append_take]
        congr 1
        · exact List.take_of_length_le (Nat.le_succ _)
        · have h1 : pre.length + 1 - pre.length = 1 := by omega
          rw [h1]
          rfl
      by_cases hle : i + 2 ≤ pre.length
      · right
        refine ⟨pre.drop (i + 2), ?_⟩
        rw [htake, List.drop_append_eq_append_drop, Nat.sub_eq_zero_of_le hle]
        rfl
      · left
        rw [htake, List.drop_eq_nil_iff]
        simp only [List.length_append, List.length_singleton]
        omega

theorem jsonPayload_arr (l : List Char) (j : Json) (pre : List Char)
    (hl : l = pre ++ [']']) (hp : jsonParseChars l = some j) :
    ∃ es, j = Json.arr es := by
  unfold jsonParseChars at hp
  split at hp
  case h_2 => cases hp
  case h_1 j₀ rest hpv =>
    split at hp
    · rename_i hemp
      simp only [Option.some.injEq] at hp
      subst hp
      obtain ⟨pre₂, c, hdec, hok⟩ := (parse_suffix_main (l.length + 1)).1 _ _ _ hpv
      have hws : ∀ x ∈ rest, isJsonWs x = true :=
        skipWs_eq_nil rest (by simpa [List.isEmpty_iff] using hemp)
      cases rest with
      | nil =>
        have hc : c = ']' := by
          have h1 : l.getLast? = some ']' := by
            rw [hl]
            exact List.getLast?_concat _
          have h2 : l.getLast? = some c := by
            rw [hdec]
            exact List.getLast?_concat _
          rw [h1] at h2
          injection h2 with h2
          exact h2.symm
        subst hc
        cases j₀ with
        | arr es => exact ⟨es, rfl⟩
        | null =>
          simp only [lastCharOk] at hok
          exact absurd hok (by decide)
        | bool b =>
          simp only [lastCharOk] at hok
          exact absurd hok (by decide)
        | num f m e =>
          simp only [lastCharOk] at hok
          exact absurd hok (by decide)
        | str s =>
          simp only [lastCharOk] at hok
          exact absurd hok (by decide)
        | obj ms =>
          simp only [lastCharOk] at hok
          exact absurd hok (by decide)
        | nan =>
          simp only [lastCharOk] at hok
          exact absurd hok (by decide)
        | inf b =>
          simp only [lastCharOk] at hok
          exact absurd hok (by decide)
      | cons r0 rs =>
        exfalso
        have h1 : l.getLast? = some ']' := by
          rw [hl]
          exact List.getLast?_concat _
        have h2 : l.getLast? = (r0 :: rs).getLast? := by
          rw [hdec, show pre₂ ++ c :: r0 :: rs = (pre₂ ++ [c]) ++ r0 :: rs by simp]
          exact List.getLast?_append_of_ne_nil _ (List.cons_ne_nil _ _)
        rw [h1] at h2
        have hmem : ']' ∈ r0 :: rs := mem_of_getLast?_eq _ _ h2.symm
        exact absurd (hws ']' hmem) (by decide)
    · cases hp

theorem jsonPayload_arr_of_parse (content : String) (j : Json)
    (hp : jsonParseChars (payloadSlice content) = some j) :
    ∃ es, j = Json.arr es := by
  rcases payloadSlice_ends content with hnil | ⟨pre, hpre⟩
  · rw [hnil] at hp
    cases hp
  · exact jsonPayload_arr _ j pre hpre hp

/-- C9: Parser failure condition.  For every input file content,
`parse_plurk_file` / `parse_response_file` succeed exactly when the
`BackupData.<kind>["KEY"]` label matches, the `"]="` delimiter is
present, and the payload slice (up to the last `]`) parses as a JSON
array; on success they return the captured label key together with that
array (the closing-`]` bound forces every successfully parsed payload
to be an array, so non-array JSON payloads are impossible).  On every
other input the result is an error — the functions are pure and
deterministic by construction. -/
theorem c9_parser_failure_condition (content : String) :
    ((∃ k j, parse_plurk_file content = .ok (k, j)) ↔
      (∃ key, matchBackupLabel "plurks" content = some key) ∧
        (∃ i, findEqIdx content.data = some i) ∧
        (∃ es, jsonParseChars (payloadSlice content) = some (Json.arr es))) ∧
    (∀ k j, parse_plurk_file content = .ok (k, j) →
      matchBackupLabel "plurks" content = some k ∧
        ∃ es, j = Json.arr es ∧
          jsonParseChars (payloadSlice content) = some j) ∧
    ((∃ k j, parse_response_file content = .ok (k, j)) ↔
      (∃ key, matchBackupLabel "responses" content = some key) ∧
        (∃ i, findEqIdx content.data = some i) ∧
        (∃ es, jsonParseChars (payloadSlice content) = some (Json.arr es))) ∧
    (∀ k j, parse_response_file content = .ok (k, j) →
      matchBackupLabel "responses" content = some k ∧
        ∃ es, j = Json.arr es ∧
          jsonParseChars (payloadSlice content) = some j) := by
  refine ⟨⟨?_, ?_⟩, ?_, ⟨?_, ?_⟩, ?_⟩
  · rintro ⟨k, j, hok⟩
    unfold parse_plurk_file at hok
    split at hok
    · cases hok
    · rename_i key hm
      split at hok
      · cases hok
      · rename_i i hf
        split at hok
        · rename_i j₀ hj
          obtain ⟨es, hes⟩ := jsonPayload_arr_of_parse content j₀ hj
          exact ⟨⟨key, hm⟩, ⟨i, hf⟩, es, by rw [hj, hes]⟩
        · cases hok
  · rintro ⟨⟨key, hkey⟩, ⟨i, hi⟩, es, hj⟩
    refine ⟨key, Json.arr es, ?_⟩
    unfold parse_plurk_file
    rw [hkey, hi, hj]
  · intro k j hok
    unfold parse_plurk_file at hok
    split at hok
    · cases hok
    · rename_i key hm
      split at hok
      · cases hok
      · rename_i i hf
        split at hok
        · rename_i j₀ hj
          simp only [Except.ok.injEq, Prod.mk.injEq] at hok
          obtain ⟨hk, hj'⟩ := hok
          subst hk
          subst hj'
          obtain ⟨es, hes⟩ := jsonPayload_arr_of_parse content j₀ hj
          exact ⟨hm, es, hes, hj⟩
        · cases hok
  · rintro ⟨k, j, hok⟩
    unfold parse_response_file at hok
    split at hok
    · cases hok
    · rename_i key hm
      split at hok
      · cases hok
      · rename_i i hf
        split at hok
        · rename_i j₀ hj
          obtain ⟨es, hes⟩ := jsonPayload_arr_of_parse content j₀ hj
          exact ⟨⟨key, hm⟩, ⟨i, hf⟩, es, by rw [hj, hes]⟩
        · cases hok
  · rintro ⟨⟨key, hkey⟩, ⟨i, hi⟩, es, hj⟩
    refine ⟨key, Json.arr es, ?_⟩
    unfold parse_response_file
    rw [hkey, hi, hj]
  · intro k j hok
    unfold parse_response_file at hok
    split at hok
    · cases hok
    · rename_i key hm
      split at hok
      · cases hok
      · rename_i i hf
        split at hok
        · rename_i j₀ hj
          simp only [Except.ok.injEq, Prod.mk.injEq] at hok
          obtain ⟨hk, hj'⟩ := hok
          subst hk
          subst hj'
          obtain ⟨es, hes⟩ := jsonPayload_arr_of_parse content j₀ hj
          exact ⟨hm, es, hes, hj⟩
        · cases hok

/-- The C9 characterisation applied to a concrete well-formed plurk
fragment: the backward direction of the equivalence yields a successful
parse of `BackupData.plurks["2008_12"]=[1];`. -/
theorem c9_parser_failure_condition_witness :
    ∃ k j, parse_plurk_file "BackupData.plurks[\"2008_12\"]=[1];" = .ok (k, j) :=
  (c9_parser_failure_condition "BackupData.plurks[\"2008_12\"]=[1];").1.mpr
    ⟨⟨"2008_12", rfl⟩, ⟨27, rfl⟩, ⟨[Json.num false 1 0], rfl⟩⟩

/-! ### Search pagination lemmas -/

theorem slice_nil (l : List ρ) (off : Nat) (h : l.length ≤ off) :
    (l.drop off).take RESULTS_PER_PAGE = [] := by
  rw [List.drop_eq_nil_iff.mpr h]
  rfl

theorem searchContent_results_nil (postedOf : ρ → Option String)
    (pm rm : List ρ) (st : String) (page : Nat)
    (h : page * RESULTS_PER_PAGE ≥
      (if st = "all" ∨ st = "plurks" then pm.length else 0) +
      (if st = "all" ∨ st = "responses" then rm.length else 0)) :
    (searchContent postedOf pm rm st page).results = [] := by
  simp only [searchContent]
  have h1 : (if st = "all" ∨ st = "plurks" then
      (pm.drop (page * RESULTS_PER_PAGE)).take RESULTS_PER_PAGE else []) = [] := by
    by_cases hp : st = "all" ∨ st = "plurks"
    · rw [if_pos hp]
      apply slice_nil
      rw [if_pos hp] at h
      omega
    · rw [if_neg hp]
  have h2 : (if st = "all" ∨ st = "responses" then
      (rm.drop (page * RESULTS_PER_PAGE)).take RESULTS_PER_PAGE else []) = [] := by
    by_cases hp : st = "all" ∨ st = "responses"
    · rw [if_pos hp]
      apply slice_nil
      rw [if_pos hp] at h
      omega
    · rw [if_neg hp]
  rw [h1, h2]
  rfl

theorem searchContent_all_length (postedOf : ρ → Option String)
    (pm rm : List ρ) (page : Nat) :
    (searchContent postedOf pm rm "all" page).results.length =
      min RESULTS_PER_PAGE (pm.length - page * RESULTS_PER_PAGE) +
      min RESULTS_PER_PAGE (rm.length - page * RESULTS_PER_PAGE) := by
  simp only [searchContent]
  rw [List.length_insertionSort, List.length_append,
    if_pos (Or.inl trivial : True ∨ ("all" : String) = "plurks"),
    if_pos (Or.inl trivial : True ∨ ("all" : String) = "responses"),
    List.length_take, List.length_drop, List.length_take, List.length_drop]

/-- C8: Pagination boundary: for every query, scope and mode (abstracted
into the lists of matching rows per table and the store/index existence
flags), whenever the requested page number times the page size 50 is at
least the number of matching rows, `search` returns an empty results
list, `total` equal to the match count, the requested `page` echoed back
verbatim, and `pages = max(1, ceil(total/50))`. -/
theorem c8_pagination_boundary :
    ∀ (ρ : Type) (postedOf : ρ → Option String) (pm rm lm : List ρ)
      (tableExists ftsExists useFts : Bool) (st : String) (page : Nat),
      page * RESULTS_PER_PAGE ≥
        matchTotal pm rm lm tableExists ftsExists useFts st →
      (search postedOf pm rm lm tableExists ftsExists useFts st page).results = [] ∧
      (search postedOf pm rm lm tableExists ftsExists useFts st page).total =
        matchTotal pm rm lm tableExists ftsExists useFts st ∧
      (search postedOf pm rm lm tableExists ftsExists useFts st page).page = page ∧
      (search postedOf pm rm lm tableExists ftsExists useFts st page).pages =
        totalPages (matchTotal pm rm lm tableExists ftsExists useFts st) := by
  intro ρ postedOf pm rm lm te fe uf st page h
  by_cases hst : st = "links"
  · subst hst
    have hred : search postedOf pm rm lm te fe uf "links" page =
        searchLinks lm te fe uf page := by
      simp [search]
    have hmt : matchTotal pm rm lm te fe uf "links" =
        (if !te then 0 else if uf && !fe then 0 else lm.length) := by
      simp [matchTotal]
    rw [hred, hmt]
    rw [hmt] at h
    cases te
    · refine ⟨rfl, rfl, rfl, ?_⟩
      show (1 : Nat) = totalPages 0
      decide
    · cases uf
      · refine ⟨?_, rfl, rfl, rfl⟩
        show (lm.drop (page * RESULTS_PER_PAGE)).take RESULTS_PER_PAGE = []
        apply slice_nil
        simpa using h
      · cases fe
        · refine ⟨rfl, rfl, rfl, ?_⟩
          show (1 : Nat) = totalPages 0
          decide
        · refine ⟨?_, rfl, rfl, rfl⟩
          show (lm.drop (page * RESULTS_PER_PAGE)).take RESULTS_PER_PAGE = []
          apply slice_nil
          simpa using h
  · have h' : page * RESULTS_PER_PAGE ≥
        (if st = "all" ∨ st = "plurks" then pm.length else 0) +
        (if st = "all" ∨ st = "responses" then rm.length else 0) := by
      simp only [matchTotal, if_neg hst] at h
      exact h
    refine ⟨?_, ?_, ?_, ?_⟩
    · simp only [search, if_neg hst]
      exact searchContent_results_nil postedOf pm rm st page h'
    · simp only [search, if_neg hst, searchContent, matchTotal]
    · simp only [search, if_neg hst, searchContent]
    · simp only [search, if_neg hst, searchContent, matchTotal, totalPages]

/-- Closed witness for `c8_pagination_boundary`: page 7 of an `"all"`
search over four matching rows is empty, echoes the page number and
reports one page. -/
theorem c8_pagination_boundary_witness :
    (search (fun _ : Nat => none) [0, 1, 2] [0] [] true true false "all" 7).results =
      [] ∧
    (search (fun _ : Nat => none) [0, 1, 2] [0] [] true true false "all" 7).total =
      matchTotal [0, 1, 2] [0] ([] : List Nat) true true false "all" ∧
    (search (fun _ : Nat => none) [0, 1, 2] [0] [] true true false "all" 7).page =
      7 ∧
    (search (fun _ : Nat => none) [0, 1, 2] [0] [] true true false "all" 7).pages =
      totalPages (matchTotal [0, 1, 2] [0] ([] : List Nat) true true false "all") :=
  c8_pagination_boundary Nat (fun _ => none) [0, 1, 2] [0] [] true true false
    "all" 7 (by decide)

/-- C10 (implicit): in scope `"all"` the page limit of 50 rows is applied
separately to the posts query and the replies query before the two lists
are merged and re-sorted, so one returned page holds up to 100 results
(up to 50 posts plus up to 50 replies) — and exactly 100 when both
tables have at least 50 matches past the offset — while `pages` is
computed from the combined total as `max(1, ceil(total/50))`. -/
theorem c10_all_scope_per_table_page_limit :
    (∀ (ρ : Type) (postedOf : ρ → Option String) (pm rm : List ρ) (page : Nat),
      (searchContent postedOf pm rm "all" page).results.length =
        min RESULTS_PER_PAGE (pm.length - page * RESULTS_PER_PAGE) +
        min RESULTS_PER_PAGE (rm.length - page * RESULTS_PER_PAGE) ∧
      (searchContent postedOf pm rm "all" page).results.length ≤
        2 * RESULTS_PER_PAGE ∧
      (searchContent postedOf pm rm "all" page).pages =
        max 1 ((pm.length + rm.length + (RESULTS_PER_PAGE - 1)) /
          RESULTS_PER_PAGE)) ∧
    (searchContent (fun _ : Unit => none) (List.replicate 60 ())
      (List.replicate 60 ()) "all" 0).results.length = 2 * RESULTS_PER_PAGE := by
  have hgen : ∀ (ρ : Type) (postedOf : ρ → Option String) (pm rm : List ρ)
      (page : Nat),
      (searchContent postedOf pm rm "all" page).results.length =
        min RESULTS_PER_PAGE (pm.length - page * RESULTS_PER_PAGE) +
        min RESULTS_PER_PAGE (rm.length - page * RESULTS_PER_PAGE) :=
    fun ρ postedOf pm rm page => searchContent_all_length postedOf pm rm page
  refine ⟨fun ρ postedOf pm rm page => ⟨hgen ρ postedOf pm rm page, ?_, ?_⟩, ?_⟩
  · rw [hgen ρ postedOf pm rm page]
    have h1 : min RESULTS_PER_PAGE (pm.length - page * RESULTS_PER_PAGE) ≤
        RESULTS_PER_PAGE := Nat.min_le_left _ _
    have h2 : min RESULTS_PER_PAGE (rm.length - page * RESULTS_PER_PAGE) ≤
        RESULTS_PER_PAGE := Nat.min_le_left _ _
    omega
  · simp only [searchContent, totalPages, true_or, if_true]
  · rw [hgen Unit (fun _ => none) (List.replicate 60 ()) (List.replicate 60 ()) 0]
    decide

/-- C2: Scan planning: empty store yields `(None, None)`; otherwise, with
`gap_months` the whole-month difference between the current date and the
latest stored posting timestamp, the range is
`(month(latest), month(current))` when the gap exceeds 6 months and
`(month(current - 6 months), month(current))` when the gap is at most 6
(including exactly 6); in particular latest `2025-06-15` with current
date `2026-02-02` yields `("2025-06", "2026-02")`, and latest
`2025-12-31` with current date `2026-02-02` yields
`("2025-08", "2026-02")`. -/
theorem c2_scan_range_spec :
    (∀ current, calculate_scan_range none current = (none, none)) ∧
    (∀ latest current,
      (gap_months latest current > 6 →
        calculate_scan_range (some latest) current =
          (some (fmtYM latest.year latest.month),
           some (fmtYM current.year current.month))) ∧
      (gap_months latest current ≤ 6 →
        calculate_scan_range (some latest) current =
          (some (fmtYM (subSixMonths current).1 (subSixMonths current).2),
           some (fmtYM current.year current.month)))) ∧
    calculate_scan_range (some ⟨2025, 6, 15⟩) ⟨2026, 2, 2⟩ =
      (some "2025-06", some "2026-02") ∧
    calculate_scan_range (some ⟨2025, 12, 31⟩) ⟨2026, 2, 2⟩ =
      (some "2025-08", some "2026-02") := by
  refine ⟨fun _ => rfl, fun latest current => ⟨fun h => ?_, fun h => ?_⟩, by decide, by decide⟩
  · simp [calculate_scan_range, if_pos h]
  · simp [calculate_scan_range, if_neg (not_lt.mpr h)]

/-- Closed witness for `c2_scan_range_spec`: the gap between 2025-06-15
and 2026-02-02 is 8 months, and the planner resumes at the latest month. -/
theorem c2_scan_range_witness :
    calculate_scan_range (some ⟨2025, 6, 15⟩) ⟨2026, 2, 2⟩ =
      (some (fmtYM (2025 : Int) 6), some (fmtYM (2026 : Int) 2)) :=
  (c2_scan_range_spec.2.1 ⟨2025, 6, 15⟩ ⟨2026, 2, 2⟩).1 (by decide)

end PlurkViewer
